import Mathlib

/-!
Verification of mpags-cipher: command-line processing and the chunked transform.

A shallow embedding of `processCommandLine` (src/MPAGSCipher/ProcessCommandLine.cpp)
together with the data it works on (`ProgramSettings`, the exception classes of
CustomExceptions.hpp and the initial settings built in `main`), and of the code of
`main` (src/mpags-cipher.cpp) that handles parse errors, cuts the text into chunks,
applies the cipher to each chunk and recombines the results.

* `std::vector<std::string>` is a `List String` and the text is a `List Char`;
  `std::size_t` values are natural numbers reduced modulo `2 ^ 64` by `sizeT`, so a
  vector or text the program can receive has fewer than `2 ^ 64` elements.
* `throw` is an explicit result; an element access outside the vector (undefined
  behaviour in C++) is an explicit result as well.
* The `for` loop of `processCommandLine` runs on fuel; `processCommandLine` supplies
  one unit of fuel per token, and the theorems show that this is always enough.
-/

namespace MPAGSCipher

/-! ## Data model -/

/-- Modelled from the spec: CipherMode.hpp is not part of the sources at hand; the
enumeration has the two values `CipherMode::Encrypt` and `CipherMode::Decrypt` that
ProcessCommandLine.cpp and mpags-cipher.cpp use. -/
inductive CipherMode
  | Encrypt
  | Decrypt
  deriving DecidableEq, Repr

/-- Modelled from the spec: CipherType.hpp is not part of the sources at hand; the
enumeration has the three values `CipherType::Caesar`, `CipherType::Playfair` and
`CipherType::Vigenere` that ProcessCommandLine.cpp uses. -/
inductive CipherType
  | Caesar
  | Playfair
  | Vigenere
  deriving DecidableEq, Repr

/-- The struct `ProgramSettings` of ProcessCommandLine.hpp, fields in declaration order. -/
structure ProgramSettings where
  helpRequested : Bool
  versionRequested : Bool
  inputFile : String
  outputFile : String
  cipherKey : String
  cipherMode : CipherMode
  cipherType : CipherType
  deriving DecidableEq, Repr

/-- The exception classes of CustomExceptions.hpp. Each derives from
`std::invalid_argument` and carries nothing but the message it was built with. -/
inductive Exception
  | MissingArgument (msg : String)
  | UnknownArgument (msg : String)
  | InvalidKey (msg : String)
  | InvalidCipher (msg : String)
  deriving DecidableEq, Repr

/-- The member `what()` inherited from `std::invalid_argument`: the constructor's message. -/
def Exception.what : Exception → String
  | .MissingArgument msg => msg
  | .UnknownArgument msg => msg
  | .InvalidKey msg => msg
  | .InvalidCipher msg => msg

/-- The settings `main` builds before parsing (mpags-cipher.cpp, lines 22-23):
`{false, false, "", "", "", CipherMode::Encrypt, CipherType::Caesar}`. -/
def defaultSettings : ProgramSettings :=
  { helpRequested := false
    versionRequested := false
    inputFile := ""
    outputFile := ""
    cipherKey := ""
    cipherMode := CipherMode.Encrypt
    cipherType := CipherType.Caesar }

/-! ## `std::size_t` arithmetic -/

/-- Reduction of a natural number to the range of a 64-bit `std::size_t`. -/
def sizeT (x : Nat) : Nat := x % 2 ^ 64

/-- Subtraction of two `std::size_t` values: the difference modulo `2 ^ 64`, so that
`0 - 1` wraps around to `2 ^ 64 - 1`. -/
def sizeSub (a b : Nat) : Nat := sizeT (a + 2 ^ 64 - b)

/-! ## The loop of `processCommandLine` -/

/-- How one execution of the loop body ends: it falls through to the `++i` of the
`for` statement (with the current value of `i`), it leaves the loop through `break`,
it throws, or it reads `cmdLineArgs` at an index outside the vector. -/
inductive Flow
  | next (i : Nat) (settings : ProgramSettings)
  | brk (settings : ProgramSettings)
  | throw (e : Exception)
  | outOfRange
  deriving DecidableEq, Repr

/-- How the `for` loop as a whole ends: its condition `i < nCmdLineArgs` became
false, a `break` was executed, an exception was thrown, or an access was out of range. -/
inductive LoopExit
  | finished (settings : ProgramSettings)
  | broke (settings : ProgramSettings)
  | threw (e : Exception)
  | outOfRange
  deriving DecidableEq, Repr

/-- What a call of `processCommandLine` does: it returns with the settings
modified, it throws, or it has undefined behaviour. -/
inductive Outcome
  | returned (settings : ProgramSettings)
  | thrown (e : Exception)
  | undefinedBehaviour
  deriving DecidableEq, Repr

/-- The body of the `for` loop (ProcessCommandLine.cpp, lines 15-85) at index `i`. -/
def loopBody (cmdLineArgs : List String) (nCmdLineArgs i : Nat)
    (settings : ProgramSettings) : Flow :=
  match cmdLineArgs[i]? with
  | none => Flow.outOfRange
  | some arg =>
    if arg = "-h" ∨ arg = "--help" then
      Flow.brk { settings with helpRequested := true }
    else if arg = "--version" then
      Flow.brk { settings with versionRequested := true }
    else if arg = "-i" then
      if i = sizeSub nCmdLineArgs 1 then
        Flow.throw (Exception.MissingArgument "-i/--infile requires a filename argument")
      else
        match cmdLineArgs[sizeT (i + 1)]? with
        | none => Flow.outOfRange
        | some value => Flow.next (sizeT (i + 1)) { settings with inputFile := value }
    else if arg = "-o" then
      if i = sizeSub nCmdLineArgs 1 then
        Flow.throw (Exception.MissingArgument "-o/--outfile requires a filename argument")
      else
        match cmdLineArgs[sizeT (i + 1)]? with
        | none => Flow.outOfRange
        | some value => Flow.next (sizeT (i + 1)) { settings with outputFile := value }
    else if arg = "-k" then
      if i = sizeSub nCmdLineArgs 1 then
        Flow.throw (Exception.MissingArgument "-k/--key requires a string or integer")
      else
        match cmdLineArgs[sizeT (i + 1)]? with
        | none => Flow.outOfRange
        | some value => Flow.next (sizeT (i + 1)) { settings with cipherKey := value }
    else if arg = "--encrypt" then
      Flow.next i { settings with cipherMode := CipherMode.Encrypt }
    else if arg = "--decrypt" then
      Flow.next i { settings with cipherMode := CipherMode.Decrypt }
    else if arg = "-c" then
      if i = sizeSub nCmdLineArgs 1 then
        Flow.throw (Exception.MissingArgument "-c/--cipher requires the name of a cipher")
      else
        match cmdLineArgs[sizeT (i + 1)]? with
        | none => Flow.outOfRange
        | some value =>
          if value = "caesar" then
            Flow.next (sizeT (i + 1)) { settings with cipherType := CipherType.Caesar }
          else if value = "playfair" then
            Flow.next (sizeT (i + 1)) { settings with cipherType := CipherType.Playfair }
          else if value = "vigenere" then
            Flow.next (sizeT (i + 1)) { settings with cipherType := CipherType.Vigenere }
          else
            Flow.throw (Exception.InvalidCipher "Unknown cipher type")
    else
      Flow.throw (Exception.UnknownArgument "Not a valid argument")

/-- The statement `for (std::size_t i{1}; i < nCmdLineArgs; ++i) { ... }` from the
state `(i, settings)`, on fuel: one unit per execution of the body. `none` means
that the fuel ran out before the loop ended. -/
def forLoop (cmdLineArgs : List String) (nCmdLineArgs : Nat) :
    Nat → Nat → ProgramSettings → Option LoopExit
  | 0, i, settings =>
    if i < nCmdLineArgs then none else some (LoopExit.finished settings)
  | fuel + 1, i, settings =>
    if i < nCmdLineArgs then
      match loopBody cmdLineArgs nCmdLineArgs i settings with
      | Flow.next j settings' => forLoop cmdLineArgs nCmdLineArgs fuel (sizeT (j + 1)) settings'
      | Flow.brk settings' => some (LoopExit.broke settings')
      | Flow.throw e => some (LoopExit.threw e)
      | Flow.outOfRange => some LoopExit.outOfRange
    else some (LoopExit.finished settings)

/-- The loop of `processCommandLine` as the function runs it: `nCmdLineArgs` is the
size of the vector, `i` starts at 1, and there is one unit of fuel per token. -/
def scanCommandLine (cmdLineArgs : List String) (settings : ProgramSettings) :
    Option LoopExit :=
  forLoop cmdLineArgs cmdLineArgs.length cmdLineArgs.length 1 settings

/-- After the loop the function returns, whichever way the loop was left. -/
def LoopExit.toOutcome : LoopExit → Outcome
  | .finished settings => Outcome.returned settings
  | .broke settings => Outcome.returned settings
  | .threw e => Outcome.thrown e
  | .outOfRange => Outcome.undefinedBehaviour

/-- The function `processCommandLine` of ProcessCommandLine.cpp: the settings passed by
reference are the argument, the modified settings are part of the result. -/
def processCommandLine (cmdLineArgs : List String) (settings : ProgramSettings) :
    Option Outcome :=
  (scanCommandLine cmdLineArgs settings).map LoopExit.toOutcome

/-! ## The loop as a recursion over the tokens still to be read -/

/-- The loop read as a recursion over the tokens from index `i` on. It is used only in
proofs: `forLoop_eq_scanTokens` shows that the index loop computes it. -/
def scanTokens : List String → ProgramSettings → LoopExit
  | [], settings => LoopExit.finished settings
  | [arg], settings =>
    if arg = "-h" ∨ arg = "--help" then
      LoopExit.broke { settings with helpRequested := true }
    else if arg = "--version" then
      LoopExit.broke { settings with versionRequested := true }
    else if arg = "-i" then
      LoopExit.threw (Exception.MissingArgument "-i/--infile requires a filename argument")
    else if arg = "-o" then
      LoopExit.threw (Exception.MissingArgument "-o/--outfile requires a filename argument")
    else if arg = "-k" then
      LoopExit.threw (Exception.MissingArgument "-k/--key requires a string or integer")
    else if arg = "--encrypt" then
      LoopExit.finished { settings with cipherMode := CipherMode.Encrypt }
    else if arg = "--decrypt" then
      LoopExit.finished { settings with cipherMode := CipherMode.Decrypt }
    else if arg = "-c" then
      LoopExit.threw (Exception.MissingArgument "-c/--cipher requires the name of a cipher")
    else
      LoopExit.threw (Exception.UnknownArgument "Not a valid argument")
  | arg :: value :: rest, settings =>
    if arg = "-h" ∨ arg = "--help" then
      LoopExit.broke { settings with helpRequested := true }
    else if arg = "--version" then
      LoopExit.broke { settings with versionRequested := true }
    else if arg = "-i" then
      scanTokens rest { settings with inputFile := value }
    else if arg = "-o" then
      scanTokens rest { settings with outputFile := value }
    else if arg = "-k" then
      scanTokens rest { settings with cipherKey := value }
    else if arg = "--encrypt" then
      scanTokens (value :: rest) { settings with cipherMode := CipherMode.Encrypt }
    else if arg = "--decrypt" then
      scanTokens (value :: rest) { settings with cipherMode := CipherMode.Decrypt }
    else if arg = "-c" then
      if value = "caesar" then
        scanTokens rest { settings with cipherType := CipherType.Caesar }
      else if value = "playfair" then
        scanTokens rest { settings with cipherType := CipherType.Playfair }
      else if value = "vigenere" then
        scanTokens rest { settings with cipherType := CipherType.Vigenere }
      else
        LoopExit.threw (Exception.InvalidCipher "Unknown cipher type")
    else
      LoopExit.threw (Exception.UnknownArgument "Not a valid argument")
termination_by tokens => tokens.length

/-! ## The chunked transform of `main`

The text is a list of characters, one per `char` of the `std::string`. The cipher
object is not part of the sources at hand: its member `applyCipher` is a parameter
of the definitions, a function of the chunk and the mode. -/

/-- The number of threads, `size_t nThreads{4}` (mpags-cipher.cpp, line 105). -/
def nThreads : Nat := 4

/-- The member `std::string::substr(pos, len)`: the characters from position `pos`
on, at most `len` of them. It throws `std::out_of_range`, here `none`, when `pos` is
greater than the size of the string. -/
def substr (text : List Char) (pos len : Nat) : Option (List Char) :=
  if pos > text.length then none else some ((text.drop pos).take len)

/-- The value `div{inLen / nThreads}` (line 109). -/
def div (inLen : Nat) : Nat := inLen / nThreads

/-- The value `last{div + inLen % nThreads}` (line 111). -/
def last (inLen : Nat) : Nat := sizeT (div inLen + inLen % nThreads)

/-- The variable `length` of the loop at index `i` (lines 114-119): `div` unless `i`
is `nThreads - 1`, and `last` there. -/
def chunkLength (inLen i : Nat) : Nat :=
  if i ≠ sizeSub nThreads 1 then div inLen else last inLen

/-- The position `div * i` at which the chunk of index `i` starts (line 121). -/
def chunkStart (inLen i : Nat) : Nat := sizeT (div inLen * i)

/-- The chunk of index `i`: `inputText.substr(div * i, length)` (line 121). -/
def chunk (inputText : List Char) (i : Nat) : Option (List Char) :=
  substr inputText (chunkStart inputText.length i) (chunkLength inputText.length i)

/-- The chunks the loop `for (size_t i{0}; i < nThreads; i++)` cuts, in index order;
`none` when a call of `substr` throws. -/
def chunks (inputText : List Char) : Option (List (List Char)) :=
  (List.range nThreads).mapM (chunk inputText)

/-- The values the futures yield, in the order of the vector `futures`: the future of
index `i` yields `cipher->applyCipher(chunk, settings.cipherMode)` for the chunk of
index `i` (line 123). -/
def futures (applyCipher : List Char → CipherMode → List Char) (cipherMode : CipherMode)
    (inputText : List Char) : Option (List (List Char)) :=
  (chunks inputText).map (List.map fun c => applyCipher c cipherMode)

/-- The recombination (lines 141-145): starting from the empty string,
`outputText = outputText + f.get()` for each future in the order of the vector. -/
def outputText (results : List (List Char)) : List Char :=
  results.foldl (fun out r => out ++ r) []

/-- The chunked transform of `main` (lines 104-145): cut the text into chunks, apply
the cipher to each, recombine the results. -/
def chunkedTransform (applyCipher : List Char → CipherMode → List Char)
    (cipherMode : CipherMode) (inputText : List Char) : Option (List Char) :=
  (futures applyCipher cipherMode inputText).map outputText

/-! ## The first statements of `main` -/

/-- How the first statements of `main` (mpags-cipher.cpp, lines 19-31) end: `main`
returns with a status, an exception leaves `main` uncaught (the program is ended by
`std::terminate`), `main` goes on to line 33 with the settings, or the behaviour is
undefined. -/
inductive ParseStage
  | exit (status : Nat)
  | uncaught (e : Exception)
  | proceed (settings : ProgramSettings)
  | undefinedBehaviour
  deriving DecidableEq, Repr

/-- The first statements of `main` (lines 19-31): the settings are built, and
`processCommandLine` is called in a `try` block whose only handler is
`catch (const MissingArgument& e)`, which reports the error and returns 1. -/
def mainParseStage (cmdLineArgs : List String) : Option ParseStage :=
  (processCommandLine cmdLineArgs defaultSettings).map fun
    | Outcome.returned settings => ParseStage.proceed settings
    | Outcome.thrown (Exception.MissingArgument _) => ParseStage.exit 1
    | Outcome.thrown e => ParseStage.uncaught e
    | Outcome.undefinedBehaviour => ParseStage.undefinedBehaviour

/-! ## The futures and the order in which the workers finish -/

/-- The worker of index `i` finishes: the shared state of the future of index `i`
becomes ready with the value of `applyCipher` on the chunk of index `i`. The states of
the futures are a list in the order of the vector `futures`; `none` is a future that is
not ready. -/
def complete (applyCipher : List Char → CipherMode → List Char) (cipherMode : CipherMode)
    (chunkList : List (List Char)) (state : List (Option (List Char))) (i : Nat) :
    List (Option (List Char)) :=
  match chunkList[i]? with
  | some c => state.set i (some (applyCipher c cipherMode))
  | none => state

/-- The states of the futures after the workers have finished in the order `order`,
from the state in which no future is ready. -/
def runWorkers (applyCipher : List Char → CipherMode → List Char) (cipherMode : CipherMode)
    (chunkList : List (List Char)) (order : List Nat) : List (Option (List Char)) :=
  order.foldl (complete applyCipher cipherMode chunkList)
    (List.replicate chunkList.length none)

/-- The calls `f.get()` on the futures in the order of the vector (lines 142-145);
`none` when a future never becomes ready, so that the wait of lines 127-138 has no end. -/
def getAll : List (Option (List Char)) → Option (List (List Char))
  | [] => some []
  | none :: _ => none
  | some r :: rest => (getAll rest).map (fun rs => r :: rs)

/-- The chunked transform of `main` when the workers finish in the order `order`. -/
def transformInOrder (applyCipher : List Char → CipherMode → List Char)
    (cipherMode : CipherMode) (inputText : List Char) (order : List Nat) :
    Option (List Char) :=
  (chunks inputText).bind fun chunkList =>
    (getAll (runWorkers applyCipher cipherMode chunkList order)).map outputText

/-- A cipher that undoes itself without keeping the number of characters: encryption
writes the text twice, decryption keeps the first half. -/
def doublingCipher (text : List Char) : CipherMode → List Char
  | CipherMode.Encrypt => text ++ text
  | CipherMode.Decrypt => text.take (text.length / 2)

/-! ## Vocabulary of the statements -/

/-- The text `text` occurs in the message `msg` as a contiguous run of characters:
this is what it means for an error message to name a flag or a value. -/
def mentions (msg text : String) : Prop := text.toList <:+: msg.toList

instance (msg text : String) : Decidable (mentions msg text) := by
  unfold mentions
  infer_instance

/-- The tokens in flag position, each with the value it takes, as section 4.1 of the
specification describes the scan: after the program name the tokens are read from left
to right; `-i`, `-o`, `-k` and `-c` take the token that follows as their value and the
scan advances two positions, every other token stands alone and the scan advances one
position. A value is not in flag position. -/
def flagOccurrences : List String → List (String × Option String)
  | [] => []
  | [flag] => [(flag, none)]
  | flag :: value :: rest =>
    if flag ∈ ["-i", "-o", "-k", "-c"] then (flag, some value) :: flagOccurrences rest
    else (flag, none) :: flagOccurrences (value :: rest)

/-- The last occurrence, in flag position, of one of the flags `flags` among `tokens`
(the tokens after the program name), with its value. -/
def lastOccurrence (flags : List String) (tokens : List String) :
    Option (String × Option String) :=
  ((flagOccurrences tokens).filter (fun o => decide (o.1 ∈ flags))).getLast?

/-- The first occurrence, in flag position, of one of the flags `flags` among `tokens`
(the tokens after the program name), with its value. -/
def firstOccurrence (flags : List String) (tokens : List String) :
    Option (String × Option String) :=
  (flagOccurrences tokens).find? (fun o => decide (o.1 ∈ flags))

/-- The cipher a name given after `-c` stands for (specification, section 4.1). -/
def cipherTypeOfName (name : String) : Option CipherType :=
  if name = "caesar" then some CipherType.Caesar
  else if name = "playfair" then some CipherType.Playfair
  else if name = "vigenere" then some CipherType.Vigenere
  else none

/-- The mode a mode flag stands for (specification, section 4.1). -/
def cipherModeOfFlag (flag : String) : Option CipherMode :=
  if flag = "--encrypt" then some CipherMode.Encrypt
  else if flag = "--decrypt" then some CipherMode.Decrypt
  else none

/-- The frame of the scan between two settings, relative to a list of tokens: a field
differs between `a` and `b` only if its own flag is among the tokens. -/
def Frame (tokens : List String) (a b : ProgramSettings) : Prop :=
  ("-i" ∉ tokens → b.inputFile = a.inputFile)
    ∧ ("-o" ∉ tokens → b.outputFile = a.outputFile)
    ∧ ("-k" ∉ tokens → b.cipherKey = a.cipherKey)
    ∧ ("-c" ∉ tokens → b.cipherType = a.cipherType)
    ∧ ("--encrypt" ∉ tokens → "--decrypt" ∉ tokens → b.cipherMode = a.cipherMode)
    ∧ ("-h" ∉ tokens → "--help" ∉ tokens → b.helpRequested = a.helpRequested)
    ∧ ("--version" ∉ tokens → b.versionRequested = a.versionRequested)

/-! ## Basic facts -/

theorem sizeT_of_lt {x : Nat} (h : x < 2 ^ 64) : sizeT x = x :=
  Nat.mod_eq_of_lt h

theorem sizeSub_one {n : Nat} (h0 : 0 < n) (h : n < 2 ^ 64) :
    sizeSub n 1 = n - 1 := by
  unfold sizeSub sizeT
  have e : n + 2 ^ 64 - 1 = (n - 1) + 2 ^ 64 := by omega
  rw [e, Nat.add_mod_right]
  exact Nat.mod_eq_of_lt (by omega)


/-- One execution of the body at the last token. -/
theorem forLoop_last (cmdLineArgs : List String) (hsize : cmdLineArgs.length < 2 ^ 64)
    (fuel i : Nat) (arg : String) (settings : ProgramSettings)
    (hi : i + 1 = cmdLineArgs.length) (hget : cmdLineArgs[i]? = some arg)
    (hf : ∀ s, forLoop cmdLineArgs cmdLineArgs.length fuel (i + 1) s
      = some (LoopExit.finished s)) :
    forLoop cmdLineArgs cmdLineArgs.length (fuel + 1) i settings
      = some (scanTokens [arg] settings) := by
  have hpred : sizeSub cmdLineArgs.length 1 = i := by
    rw [sizeSub_one (by omega) hsize]; omega
  have hs1 : sizeT (i + 1) = i + 1 := sizeT_of_lt (by omega)
  rw [forLoop, if_pos (by omega), loopBody, hget, hpred, scanTokens]
  simp only [if_true]
  split_ifs <;> simp only [hs1, hf]

/-- One execution of the body at a token that is not the last one. -/
theorem forLoop_cons (cmdLineArgs : List String) (hsize : cmdLineArgs.length < 2 ^ 64)
    (fuel i : Nat) (arg value : String) (rest : List String) (settings : ProgramSettings)
    (hi : i + 1 < cmdLineArgs.length) (hget : cmdLineArgs[i]? = some arg)
    (hget1 : cmdLineArgs[i + 1]? = some value)
    (hf1 : ∀ s, forLoop cmdLineArgs cmdLineArgs.length fuel (i + 1) s
      = some (scanTokens (value :: rest) s))
    (hf2 : ∀ s, forLoop cmdLineArgs cmdLineArgs.length fuel (i + 2) s
      = some (scanTokens rest s)) :
    forLoop cmdLineArgs cmdLineArgs.length (fuel + 1) i settings
      = some (scanTokens (arg :: value :: rest) settings) := by
  have hpred : ¬ i = sizeSub cmdLineArgs.length 1 := by
    rw [sizeSub_one (by omega) hsize]; omega
  have hs1 : sizeT (i + 1) = i + 1 := sizeT_of_lt (by omega)
  have hs2 : sizeT (i + 1 + 1) = i + 2 := sizeT_of_lt (by omega)
  rw [forLoop, if_pos (by omega), loopBody, hget, hs1, hget1, scanTokens]
  simp only [if_neg hpred]
  by_cases h1 : arg = "-h" ∨ arg = "--help"
  · simp only [if_pos h1]
  simp only [if_neg h1]
  by_cases h2 : arg = "--version"
  · simp only [if_pos h2]
  simp only [if_neg h2]
  by_cases h3 : arg = "-i"
  · simp only [if_pos h3, hs2, hf2]
  simp only [if_neg h3]
  by_cases h4 : arg = "-o"
  · simp only [if_pos h4, hs2, hf2]
  simp only [if_neg h4]
  by_cases h5 : arg = "-k"
  · simp only [if_pos h5, hs2, hf2]
  simp only [if_neg h5]
  by_cases h6 : arg = "--encrypt"
  · simp only [if_pos h6, hs1, hf1]
  simp only [if_neg h6]
  by_cases h7 : arg = "--decrypt"
  · simp only [if_pos h7, hs1, hf1]
  simp only [if_neg h7]
  by_cases h8 : arg = "-c"
  · simp only [if_pos h8]
    split_ifs <;> simp only [hs2, hf2]
  simp only [if_neg h8]

/-- The index loop computes the recursion over the remaining tokens, whenever the
vector has a size a `std::size_t` can hold and the fuel covers the tokens left. -/
theorem forLoop_eq_scanTokens (cmdLineArgs : List String)
    (hsize : cmdLineArgs.length < 2 ^ 64) :
    ∀ (fuel i : Nat) (settings : ProgramSettings), cmdLineArgs.length ≤ i + fuel →
      forLoop cmdLineArgs cmdLineArgs.length fuel i settings
        = some (scanTokens (cmdLineArgs.drop i) settings) := by
  intro fuel
  induction fuel with
  | zero =>
    intro i settings hfuel
    rw [List.drop_eq_nil_of_le (by omega), scanTokens, forLoop, if_neg (by omega)]
  | succ f ih =>
    intro i settings hfuel
    by_cases hi : i < cmdLineArgs.length
    · have hdrop : cmdLineArgs.drop i = cmdLineArgs[i] :: cmdLineArgs.drop (i + 1) :=
        List.drop_eq_getElem_cons hi
      have hget : cmdLineArgs[i]? = some cmdLineArgs[i] := List.getElem?_eq_getElem hi
      by_cases hlast : i + 1 = cmdLineArgs.length
      · have hnil : cmdLineArgs.drop (i + 1) = [] := List.drop_eq_nil_of_le (by omega)
        rw [hdrop, hnil]
        refine forLoop_last cmdLineArgs hsize f i _ settings hlast hget ?_
        intro s
        rw [ih (i + 1) s (by omega), hnil, scanTokens]
      · have hi1 : i + 1 < cmdLineArgs.length := by omega
        have hdrop1 : cmdLineArgs.drop (i + 1)
            = cmdLineArgs[i + 1] :: cmdLineArgs.drop (i + 2) :=
          List.drop_eq_getElem_cons hi1
        have hget1 : cmdLineArgs[i + 1]? = some cmdLineArgs[i + 1] :=
          List.getElem?_eq_getElem hi1
        rw [hdrop, hdrop1]
        refine forLoop_cons cmdLineArgs hsize f i _ _ _ settings hi1 hget hget1 ?_ ?_
        · intro s
          rw [ih (i + 1) s (by omega), hdrop1]
        · intro s
          exact ih (i + 2) s (by omega)
    · rw [List.drop_eq_nil_of_le (by omega), scanTokens, forLoop, if_neg hi]

theorem scanCommandLine_eq (cmdLineArgs : List String)
    (hsize : cmdLineArgs.length < 2 ^ 64) (settings : ProgramSettings) :
    scanCommandLine cmdLineArgs settings
      = some (scanTokens (cmdLineArgs.drop 1) settings) :=
  forLoop_eq_scanTokens cmdLineArgs hsize cmdLineArgs.length 1 settings (by omega)

theorem processCommandLine_eq (cmdLineArgs : List String)
    (hsize : cmdLineArgs.length < 2 ^ 64) (settings : ProgramSettings) :
    processCommandLine cmdLineArgs settings
      = some (scanTokens (cmdLineArgs.drop 1) settings).toOutcome := by
  simp [processCommandLine, scanCommandLine_eq cmdLineArgs hsize]

/-! ## Equations of the token recursion -/

theorem scanTokens_help (arg : String) (rest : List String) (settings : ProgramSettings)
    (h : arg = "-h" ∨ arg = "--help") :
    scanTokens (arg :: rest) settings
      = LoopExit.broke { settings with helpRequested := true } := by
  cases rest <;> rw [scanTokens, if_pos h]

theorem scanTokens_version (rest : List String) (settings : ProgramSettings) :
    scanTokens ("--version" :: rest) settings
      = LoopExit.broke { settings with versionRequested := true } := by
  cases rest <;> rw [scanTokens] <;> simp

theorem scanTokens_input (value : String) (rest : List String) (settings : ProgramSettings) :
    scanTokens ("-i" :: value :: rest) settings
      = scanTokens rest { settings with inputFile := value } := by
  rw [scanTokens]; simp

theorem scanTokens_output (value : String) (rest : List String) (settings : ProgramSettings) :
    scanTokens ("-o" :: value :: rest) settings
      = scanTokens rest { settings with outputFile := value } := by
  rw [scanTokens]; simp

theorem scanTokens_key (value : String) (rest : List String) (settings : ProgramSettings) :
    scanTokens ("-k" :: value :: rest) settings
      = scanTokens rest { settings with cipherKey := value } := by
  rw [scanTokens]; simp

theorem scanTokens_encrypt (rest : List String) (settings : ProgramSettings) :
    scanTokens ("--encrypt" :: rest) settings
      = scanTokens rest { settings with cipherMode := CipherMode.Encrypt } := by
  cases rest with
  | nil => rw [scanTokens, scanTokens]; simp
  | cons v r => rw [scanTokens]; simp

theorem scanTokens_decrypt (rest : List String) (settings : ProgramSettings) :
    scanTokens ("--decrypt" :: rest) settings
      = scanTokens rest { settings with cipherMode := CipherMode.Decrypt } := by
  cases rest with
  | nil => rw [scanTokens, scanTokens]; simp
  | cons v r => rw [scanTokens]; simp

theorem scanTokens_cipher (value : String) (rest : List String) (settings : ProgramSettings) :
    scanTokens ("-c" :: value :: rest) settings
      = if value = "caesar" then
          scanTokens rest { settings with cipherType := CipherType.Caesar }
        else if value = "playfair" then
          scanTokens rest { settings with cipherType := CipherType.Playfair }
        else if value = "vigenere" then
          scanTokens rest { settings with cipherType := CipherType.Vigenere }
        else LoopExit.threw (Exception.InvalidCipher "Unknown cipher type") := by
  rw [scanTokens]; simp

theorem scanTokens_unknown (arg : String) (rest : List String) (settings : ProgramSettings)
    (h : arg ∉ ["-h", "--help", "--version", "-i", "-o", "-k", "-c", "--encrypt", "--decrypt"]) :
    scanTokens (arg :: rest) settings
      = LoopExit.threw (Exception.UnknownArgument "Not a valid argument") := by
  simp only [List.mem_cons, List.mem_singleton, not_or, List.not_mem_nil, or_false] at h
  obtain ⟨h1, h2, h3, h4, h5, h6, h7, h8, h9⟩ := h
  cases rest <;> rw [scanTokens] <;> simp [h1, h2, h3, h4, h5, h6, h7, h8, h9]

theorem scanTokens_input_last (settings : ProgramSettings) :
    scanTokens ["-i"] settings
      = LoopExit.threw (Exception.MissingArgument "-i/--infile requires a filename argument") := by
  rw [scanTokens]; simp

theorem scanTokens_output_last (settings : ProgramSettings) :
    scanTokens ["-o"] settings
      = LoopExit.threw (Exception.MissingArgument "-o/--outfile requires a filename argument") := by
  rw [scanTokens]; simp

theorem scanTokens_key_last (settings : ProgramSettings) :
    scanTokens ["-k"] settings
      = LoopExit.threw (Exception.MissingArgument "-k/--key requires a string or integer") := by
  rw [scanTokens]; simp

theorem scanTokens_cipher_last (settings : ProgramSettings) :
    scanTokens ["-c"] settings
      = LoopExit.threw (Exception.MissingArgument "-c/--cipher requires the name of a cipher") := by
  rw [scanTokens]; simp

/-- Every token is one of the flags the loop compares with, or none of them. -/
theorem token_cases (arg : String) :
    (arg = "-h" ∨ arg = "--help") ∨ arg = "--version" ∨ arg = "-i" ∨ arg = "-o" ∨ arg = "-k"
      ∨ arg = "--encrypt" ∨ arg = "--decrypt" ∨ arg = "-c"
      ∨ arg ∉ ["-h", "--help", "--version", "-i", "-o", "-k", "-c", "--encrypt", "--decrypt"] := by
  simp only [List.mem_cons, List.mem_singleton, List.not_mem_nil, or_false]
  tauto

theorem tokens_induction {P : List String → Prop} (h0 : P [])
    (h1 : ∀ arg, P [arg])
    (h2 : ∀ arg value rest, P rest → P (value :: rest) → P (arg :: value :: rest)) :
    ∀ tokens, P tokens
  | [] => h0
  | [arg] => h1 arg
  | arg :: value :: rest =>
    h2 arg value rest (tokens_induction h0 h1 h2 rest)
      (tokens_induction h0 h1 h2 (value :: rest))

/-- A scan that reaches the end of `tokens` has read all of them: on a longer list
it goes on with what follows, from the settings it reached. -/
theorem scanTokens_append (more : List String) :
    ∀ (tokens : List String) (s0 s : ProgramSettings),
      scanTokens tokens s0 = LoopExit.finished s →
      scanTokens (tokens ++ more) s0 = scanTokens more s := by
  intro tokens
  induction tokens using tokens_induction with
  | h0 =>
    intro s0 s h
    rw [scanTokens] at h
    cases h
    rfl
  | h1 arg =>
    intro s0 s h
    rcases token_cases arg with c | rfl | rfl | rfl | rfl | rfl | rfl | rfl | c
    · rw [scanTokens_help _ _ _ c] at h; cases h
    · rw [scanTokens_version] at h; cases h
    · rw [scanTokens_input_last] at h; cases h
    · rw [scanTokens_output_last] at h; cases h
    · rw [scanTokens_key_last] at h; cases h
    · rw [scanTokens_encrypt, scanTokens] at h; cases h
      exact scanTokens_encrypt more s0
    · rw [scanTokens_decrypt, scanTokens] at h; cases h
      exact scanTokens_decrypt more s0
    · rw [scanTokens_cipher_last] at h; cases h
    · rw [scanTokens_unknown _ _ _ c] at h; cases h
  | h2 arg value rest ih1 ih2 =>
    intro s0 s h
    rw [List.cons_append, List.cons_append]
    rcases token_cases arg with c | rfl | rfl | rfl | rfl | rfl | rfl | rfl | c
    · rw [scanTokens_help _ _ _ c] at h; cases h
    · rw [scanTokens_version] at h; cases h
    · rw [scanTokens_input] at h ⊢; exact ih1 _ _ h
    · rw [scanTokens_output] at h ⊢; exact ih1 _ _ h
    · rw [scanTokens_key] at h ⊢; exact ih1 _ _ h
    · rw [scanTokens_encrypt] at h ⊢; exact ih2 _ _ h
    · rw [scanTokens_decrypt] at h ⊢; exact ih2 _ _ h
    · rw [scanTokens_cipher] at h ⊢
      split_ifs at h ⊢
      · exact ih1 _ _ h
      · exact ih1 _ _ h
      · exact ih1 _ _ h
    · rw [scanTokens_unknown _ _ _ c] at h; cases h

/-- A complete scan of the vector is a complete scan of the tokens after the program name. -/
theorem scanTokens_of_scanCommandLine {cmdLineArgs : List String}
    (hsize : cmdLineArgs.length < 2 ^ 64) {s0 s : ProgramSettings}
    (h : scanCommandLine cmdLineArgs s0 = some (LoopExit.finished s)) :
    scanTokens (cmdLineArgs.drop 1) s0 = LoopExit.finished s := by
  rw [scanCommandLine_eq cmdLineArgs hsize] at h
  exact Option.some.inj h

theorem drop_one_append {pre : List String} (hpre : pre ≠ []) (more : List String) :
    (pre ++ more).drop 1 = pre.drop 1 ++ more := by
  cases pre with
  | nil => exact absurd rfl hpre
  | cons p ps => rfl

/-- What `processCommandLine` does on a vector that extends one it scans completely. -/
theorem processCommandLine_append {pre : List String} (more : List String)
    (hsize : (pre ++ more).length < 2 ^ 64) (hpre : pre ≠ []) {s0 s : ProgramSettings}
    (hscan : scanCommandLine pre s0 = some (LoopExit.finished s)) :
    processCommandLine (pre ++ more) s0 = some (scanTokens more s).toOutcome := by
  have hlen : pre.length < 2 ^ 64 := by
    rw [List.length_append] at hsize; omega
  rw [processCommandLine_eq _ hsize, drop_one_append hpre,
    scanTokens_append more _ _ _ (scanTokens_of_scanCommandLine hlen hscan)]

/-! ## The claims -/

/-- C1: on the tokens `prog -i a -o b -k k -c caesar --decrypt`, from the settings built
in `main`, `processCommandLine` returns, and the settings are exactly: input file `a`,
output file `b`, key `k`, Caesar, Decrypt, help and version not requested; this holds
for all strings `a`, `b` and `k`. -/
theorem processCommandLine_all_options (a b k : String) :
    processCommandLine ["prog", "-i", a, "-o", b, "-k", k, "-c", "caesar", "--decrypt"]
        defaultSettings
      = some (Outcome.returned
          { helpRequested := false
            versionRequested := false
            inputFile := a
            outputFile := b
            cipherKey := k
            cipherMode := CipherMode.Decrypt
            cipherType := CipherType.Caesar }) := by
  rw [processCommandLine_eq _ (by simp)]
  simp [scanTokens, LoopExit.toOutcome, defaultSettings]

/-- C2: if the loop scans `pre` (program name first) to its end, without exception and
without `break`, then for a help or version flag `h` and any tokens `suf` the call on
`pre ++ [h] ++ suf` returns, with the same settings as on `pre ++ [h]`: those reached
after `pre`, with `versionRequested` (for `--version`) or `helpRequested` (for `-h`,
`--help`) set. The tokens of `suf` are never looked at. -/
theorem processCommandLine_stops_at_help_or_version (pre suf : List String) (h : String)
    (s0 s : ProgramSettings) (hsize : (pre ++ [h] ++ suf).length < 2 ^ 64)
    (hpre : pre ≠ []) (hscan : scanCommandLine pre s0 = some (LoopExit.finished s))
    (hh : h ∈ ["-h", "--help", "--version"]) :
    processCommandLine (pre ++ [h] ++ suf) s0 = processCommandLine (pre ++ [h]) s0
      ∧ processCommandLine (pre ++ [h]) s0
        = some (Outcome.returned
            (if h = "--version" then { s with versionRequested := true }
             else { s with helpRequested := true })) := by
  have hsize1 : (pre ++ [h]).length < 2 ^ 64 := by
    simp only [List.length_append] at hsize ⊢; omega
  have hsize2 : (pre ++ ([h] ++ suf)).length < 2 ^ 64 := by
    rw [← List.append_assoc]; exact hsize
  rw [List.append_assoc, processCommandLine_append _ hsize2 hpre hscan,
    processCommandLine_append _ hsize1 hpre hscan]
  simp only [List.mem_cons, List.mem_singleton, List.not_mem_nil, or_false] at hh
  rcases hh with rfl | rfl | rfl
  · simp [scanTokens_help, LoopExit.toOutcome]
  · simp [scanTokens_help, LoopExit.toOutcome]
  · simp [scanTokens_version, LoopExit.toOutcome]

/-- Witness of C2 at the spec's case `prog --version -x`: version is requested and the
unknown token `-x` raises nothing. -/
theorem processCommandLine_stops_at_help_or_version_witness :
    scanCommandLine ["prog"] defaultSettings = some (LoopExit.finished defaultSettings)
      ∧ processCommandLine ["prog", "--version", "-x"] defaultSettings
        = processCommandLine ["prog", "--version"] defaultSettings
      ∧ processCommandLine ["prog", "--version"] defaultSettings
        = some (Outcome.returned { defaultSettings with versionRequested := true }) := by
  have key := processCommandLine_stops_at_help_or_version ["prog"] ["-x"] "--version"
    defaultSettings defaultSettings (by simp) (by simp) rfl (by simp)
  exact ⟨rfl, by simpa using key⟩

/-- C3: if the loop scans `pre` (program name first) to its end, without exception and
without `break`, then for each flag `f` among `-i`, `-o`, `-k`, `-c` the call on
`pre ++ [f]` throws `MissingArgument`, and the message of the exception contains the
text of `f`. -/
theorem processCommandLine_missing_argument (pre : List String) (f : String)
    (s0 s : ProgramSettings) (hsize : (pre ++ [f]).length < 2 ^ 64)
    (hpre : pre ≠ []) (hscan : scanCommandLine pre s0 = some (LoopExit.finished s))
    (hf : f ∈ ["-i", "-o", "-k", "-c"]) :
    ∃ msg, processCommandLine (pre ++ [f]) s0
        = some (Outcome.thrown (Exception.MissingArgument msg))
      ∧ mentions msg f := by
  rw [processCommandLine_append _ hsize hpre hscan]
  simp only [List.mem_cons, List.mem_singleton, List.not_mem_nil, or_false] at hf
  rcases hf with rfl | rfl | rfl | rfl
  · exact ⟨_, by rw [scanTokens_input_last]; rfl, by decide⟩
  · exact ⟨_, by rw [scanTokens_output_last]; rfl, by decide⟩
  · exact ⟨_, by rw [scanTokens_key_last]; rfl, by decide⟩
  · exact ⟨_, by rw [scanTokens_cipher_last]; rfl, by decide⟩

/-- Witness of C3 at the spec's case `prog -i`. -/
theorem processCommandLine_missing_argument_witness :
    scanCommandLine ["prog"] defaultSettings = some (LoopExit.finished defaultSettings)
      ∧ ∃ msg, processCommandLine ["prog", "-i"] defaultSettings
          = some (Outcome.thrown (Exception.MissingArgument msg))
        ∧ mentions msg "-i" :=
  ⟨rfl, processCommandLine_missing_argument ["prog"] "-i" defaultSettings defaultSettings
    (by simp) (by simp) rfl (by simp)⟩

/-- C4: on `prog -c v` the call returns exactly when `v` is `caesar`, `playfair` or
`vigenere` (compared as written, case included); it then sets `cipherType` to Caesar,
Playfair, Vigenere respectively and changes no other field. For every other `v` it
throws `InvalidCipher`. -/
theorem processCommandLine_cipher_value (v : String) (s0 : ProgramSettings) :
    processCommandLine ["prog", "-c", v] s0
        = some (if v = "caesar" then
            Outcome.returned { s0 with cipherType := CipherType.Caesar }
          else if v = "playfair" then
            Outcome.returned { s0 with cipherType := CipherType.Playfair }
          else if v = "vigenere" then
            Outcome.returned { s0 with cipherType := CipherType.Vigenere }
          else Outcome.thrown (Exception.InvalidCipher "Unknown cipher type"))
      ∧ ((∃ s, processCommandLine ["prog", "-c", v] s0 = some (Outcome.returned s))
          ↔ v ∈ ["caesar", "playfair", "vigenere"]) := by
  have key : processCommandLine ["prog", "-c", v] s0
        = some (if v = "caesar" then
            Outcome.returned { s0 with cipherType := CipherType.Caesar }
          else if v = "playfair" then
            Outcome.returned { s0 with cipherType := CipherType.Playfair }
          else if v = "vigenere" then
            Outcome.returned { s0 with cipherType := CipherType.Vigenere }
          else Outcome.thrown (Exception.InvalidCipher "Unknown cipher type")) := by
    rw [processCommandLine_eq _ (by simp)]
    simp only [List.drop_succ_cons, List.drop_zero, scanTokens_cipher]
    split_ifs <;> simp [scanTokens, LoopExit.toOutcome]
  refine ⟨key, ?_⟩
  rw [key]
  simp only [List.mem_cons, List.mem_singleton, List.not_mem_nil, or_false]
  split_ifs <;> simp [*]

/-- C5: if the loop scans `pre` (program name first) to its end, without exception and
without `break`, then for a token `t` that is none of the nine flags and any tokens
`suf` the call on `pre ++ [t] ++ suf` throws `UnknownArgument`, whatever `suf` holds. -/
theorem processCommandLine_unknown_argument (pre suf : List String) (t : String)
    (s0 s : ProgramSettings) (hsize : (pre ++ [t] ++ suf).length < 2 ^ 64)
    (hpre : pre ≠ []) (hscan : scanCommandLine pre s0 = some (LoopExit.finished s))
    (ht : t ∉ ["-h", "--help", "--version", "-i", "-o", "-k", "-c", "--encrypt", "--decrypt"]) :
    processCommandLine (pre ++ [t] ++ suf) s0
      = some (Outcome.thrown (Exception.UnknownArgument "Not a valid argument")) := by
  have hsize2 : (pre ++ ([t] ++ suf)).length < 2 ^ 64 := by
    rw [← List.append_assoc]; exact hsize
  rw [List.append_assoc, processCommandLine_append _ hsize2 hpre hscan]
  rw [List.singleton_append, scanTokens_unknown _ _ _ ht]
  rfl

/-- Witness of C5: the long form `--infile`, after `prog -k 3` and before further
tokens, is an unknown argument. -/
theorem processCommandLine_unknown_argument_witness :
    scanCommandLine ["prog", "-k", "3"] defaultSettings
        = some (LoopExit.finished { defaultSettings with cipherKey := "3" })
      ∧ processCommandLine ["prog", "-k", "3", "--infile", "in.txt", "--help"] defaultSettings
        = some (Outcome.thrown (Exception.UnknownArgument "Not a valid argument")) :=
  ⟨by decide, processCommandLine_unknown_argument ["prog", "-k", "3"] ["in.txt", "--help"]
    "--infile" defaultSettings { defaultSettings with cipherKey := "3" }
    (by simp) (by simp) (by decide) (by decide)⟩

/-- C6, counterexample: on `prog -c rot13` the exception thrown does not name `rot13`.
Its message, the only thing an `InvalidCipher` carries, does not contain that text, and
the very same exception is thrown for the different rejected value `Caesar`. -/
theorem invalidCipher_names_value_counterexample :
    ¬ (∃ e, processCommandLine ["prog", "-c", "rot13"] defaultSettings
          = some (Outcome.thrown e) ∧ mentions e.what "rot13")
      ∧ processCommandLine ["prog", "-c", "rot13"] defaultSettings
        = processCommandLine ["prog", "-c", "Caesar"] defaultSettings := by
  have hrun : processCommandLine ["prog", "-c", "rot13"] defaultSettings
      = some (Outcome.thrown (Exception.InvalidCipher "Unknown cipher type")) := by decide
  refine ⟨?_, by decide⟩
  rintro ⟨e, he, hm⟩
  rw [hrun] at he
  cases he
  exact absurd hm (by decide)

/-- C6, amended: for every `v` other than `caesar`, `playfair`, `vigenere` the call on
`prog -c v` throws `InvalidCipher` with the fixed message `Unknown cipher type`, the
same for every rejected value. -/
theorem invalidCipher_message_fixed (v : String) (s0 : ProgramSettings)
    (hv : v ∉ ["caesar", "playfair", "vigenere"]) :
    processCommandLine ["prog", "-c", v] s0
      = some (Outcome.thrown (Exception.InvalidCipher "Unknown cipher type")) := by
  simp only [List.mem_cons, List.mem_singleton, List.not_mem_nil, or_false, not_or] at hv
  rw [processCommandLine_eq _ (by simp)]
  simp only [List.drop_succ_cons, List.drop_zero, scanTokens_cipher, if_neg hv.1,
    if_neg hv.2.1, if_neg hv.2.2]
  rfl

/-- Witness of the amended C6 at `prog -c rot13`. -/
theorem invalidCipher_message_fixed_witness :
    "rot13" ∉ ["caesar", "playfair", "vigenere"]
      ∧ processCommandLine ["prog", "-c", "rot13"] defaultSettings
        = some (Outcome.thrown (Exception.InvalidCipher "Unknown cipher type")) :=
  ⟨by decide, invalidCipher_message_fixed "rot13" defaultSettings (by decide)⟩

/-- C7, counterexample: on `prog -x` the exception thrown does not name `-x`. Its
message, the only thing an `UnknownArgument` carries, does not contain that text, and
the very same exception is thrown for the different unknown token `--infile`. -/
theorem unknownArgument_names_token_counterexample :
    ¬ (∃ e, processCommandLine ["prog", "-x"] defaultSettings
          = some (Outcome.thrown e) ∧ mentions e.what "-x")
      ∧ processCommandLine ["prog", "-x"] defaultSettings
        = processCommandLine ["prog", "--infile"] defaultSettings := by
  have hrun : processCommandLine ["prog", "-x"] defaultSettings
      = some (Outcome.thrown (Exception.UnknownArgument "Not a valid argument")) := by decide
  refine ⟨?_, by decide⟩
  rintro ⟨e, he, hm⟩
  rw [hrun] at he
  cases he
  exact absurd hm (by decide)

/-- C7, amended: for every token `t` that is none of the nine flags the call on
`prog t` throws `UnknownArgument` with the fixed message `Not a valid argument`, the
same for every unknown token. -/
theorem unknownArgument_message_fixed (t : String) (s0 : ProgramSettings)
    (ht : t ∉ ["-h", "--help", "--version", "-i", "-o", "-k", "-c", "--encrypt", "--decrypt"]) :
    processCommandLine ["prog", t] s0
      = some (Outcome.thrown (Exception.UnknownArgument "Not a valid argument")) := by
  rw [processCommandLine_eq _ (by simp)]
  simp only [List.drop_succ_cons, List.drop_zero, scanTokens_unknown _ _ _ ht]
  rfl

/-- Witness of the amended C7 at `prog -x`. -/
theorem unknownArgument_message_fixed_witness :
    "-x" ∉ ["-h", "--help", "--version", "-i", "-o", "-k", "-c", "--encrypt", "--decrypt"]
      ∧ processCommandLine ["prog", "-x"] defaultSettings
        = some (Outcome.thrown (Exception.UnknownArgument "Not a valid argument")) :=
  ⟨by decide, unknownArgument_message_fixed "-x" defaultSettings (by decide)⟩

/-- C8: the token after `-i`, `-o` or `-k` is stored as it is, whatever it looks like.
For every string `v` and all tokens `suf`, the call on `prog -i v` followed by `suf` does
what the loop does when it is resumed at index 3 with `inputFile` set to `v`, which is
also what the call on `prog` followed by `suf` does from those settings; likewise for
`-o` with `outputFile` and `-k` with `cipherKey`. -/
theorem processCommandLine_value_verbatim (v : String) (suf : List String)
    (s0 : ProgramSettings) (hsize : suf.length + 3 < 2 ^ 64) :
    (processCommandLine ("prog" :: "-i" :: v :: suf) s0
        = (forLoop ("prog" :: "-i" :: v :: suf) (suf.length + 3) (suf.length + 3) 3
            { s0 with inputFile := v }).map LoopExit.toOutcome
      ∧ processCommandLine ("prog" :: "-i" :: v :: suf) s0
        = processCommandLine ("prog" :: suf) { s0 with inputFile := v })
    ∧ (processCommandLine ("prog" :: "-o" :: v :: suf) s0
        = (forLoop ("prog" :: "-o" :: v :: suf) (suf.length + 3) (suf.length + 3) 3
            { s0 with outputFile := v }).map LoopExit.toOutcome
      ∧ processCommandLine ("prog" :: "-o" :: v :: suf) s0
        = processCommandLine ("prog" :: suf) { s0 with outputFile := v })
    ∧ (processCommandLine ("prog" :: "-k" :: v :: suf) s0
        = (forLoop ("prog" :: "-k" :: v :: suf) (suf.length + 3) (suf.length + 3) 3
            { s0 with cipherKey := v }).map LoopExit.toOutcome
      ∧ processCommandLine ("prog" :: "-k" :: v :: suf) s0
        = processCommandLine ("prog" :: suf) { s0 with cipherKey := v }) := by
  have hshort : ("prog" :: suf).length < 2 ^ 64 := by
    simp only [List.length_cons]; omega
  have hlong : ∀ f : String, ("prog" :: f :: v :: suf).length < 2 ^ 64 := by
    intro f; simp only [List.length_cons]; omega
  have hloop : ∀ (f : String) (s : ProgramSettings),
      forLoop ("prog" :: f :: v :: suf) (suf.length + 3) (suf.length + 3) 3 s
        = some (scanTokens suf s) := by
    intro f s
    have h := forLoop_eq_scanTokens ("prog" :: f :: v :: suf) (hlong f) (suf.length + 3) 3 s
      (by simp only [List.length_cons]; omega)
    simpa using h
  refine ⟨⟨?_, ?_⟩, ⟨?_, ?_⟩, ⟨?_, ?_⟩⟩
  · rw [processCommandLine_eq _ (hlong _), hloop]
    simp [scanTokens_input]
  · rw [processCommandLine_eq _ (hlong _), processCommandLine_eq _ hshort]
    simp [scanTokens_input]
  · rw [processCommandLine_eq _ (hlong _), hloop]
    simp [scanTokens_output]
  · rw [processCommandLine_eq _ (hlong _), processCommandLine_eq _ hshort]
    simp [scanTokens_output]
  · rw [processCommandLine_eq _ (hlong _), hloop]
    simp [scanTokens_key]
  · rw [processCommandLine_eq _ (hlong _), processCommandLine_eq _ hshort]
    simp [scanTokens_key]

/-- Witness of C8 at `prog -i -h`: the call returns with `inputFile` equal to `-h` and
help not requested. -/
theorem processCommandLine_value_verbatim_witness :
    ([] : List String).length + 3 < 2 ^ 64
      ∧ processCommandLine ["prog", "-i", "-h"] defaultSettings
        = some (Outcome.returned { defaultSettings with inputFile := "-h" })
      ∧ ({ defaultSettings with inputFile := "-h" } : ProgramSettings).helpRequested = false := by
  refine ⟨by decide, ?_, rfl⟩
  rw [(processCommandLine_value_verbatim "-h" [] defaultSettings (by decide)).1.2]
  decide

/-! ## Last occurrence of a flag -/

theorem lastOccurrence_value (flags : List String) (flag value : String) (rest : List String)
    (hflag : flag ∈ ["-i", "-o", "-k", "-c"]) :
    lastOccurrence flags (flag :: value :: rest)
      = (lastOccurrence flags rest).or
          (if flag ∈ flags then some (flag, some value) else none) := by
  unfold lastOccurrence
  rw [flagOccurrences, if_pos hflag, ← List.singleton_append, List.filter_append,
    List.getLast?_append]
  by_cases h : flag ∈ flags <;> simp [List.filter, h]

theorem lastOccurrence_plain (flags : List String) (flag : String) (rest : List String)
    (hflag : flag ∉ ["-i", "-o", "-k", "-c"]) :
    lastOccurrence flags (flag :: rest)
      = (lastOccurrence flags rest).or
          (if flag ∈ flags then some (flag, none) else none) := by
  unfold lastOccurrence
  have e : flagOccurrences (flag :: rest) = [(flag, none)] ++ flagOccurrences rest := by
    cases rest with
    | nil => simp [flagOccurrences]
    | cons v r => rw [flagOccurrences, if_neg hflag]; rfl
  rw [e, List.filter_append, List.getLast?_append]
  by_cases h : flag ∈ flags <;> simp [List.filter, h]

theorem lastOccurrence_input (flags : List String) (value : String) (rest : List String) :
    lastOccurrence flags ("-i" :: value :: rest)
      = (lastOccurrence flags rest).or
          (if "-i" ∈ flags then some ("-i", some value) else none) :=
  lastOccurrence_value flags "-i" value rest (by decide)

theorem lastOccurrence_output (flags : List String) (value : String) (rest : List String) :
    lastOccurrence flags ("-o" :: value :: rest)
      = (lastOccurrence flags rest).or
          (if "-o" ∈ flags then some ("-o", some value) else none) :=
  lastOccurrence_value flags "-o" value rest (by decide)

theorem lastOccurrence_key (flags : List String) (value : String) (rest : List String) :
    lastOccurrence flags ("-k" :: value :: rest)
      = (lastOccurrence flags rest).or
          (if "-k" ∈ flags then some ("-k", some value) else none) :=
  lastOccurrence_value flags "-k" value rest (by decide)

theorem lastOccurrence_cipher (flags : List String) (value : String) (rest : List String) :
    lastOccurrence flags ("-c" :: value :: rest)
      = (lastOccurrence flags rest).or
          (if "-c" ∈ flags then some ("-c", some value) else none) :=
  lastOccurrence_value flags "-c" value rest (by decide)

theorem lastOccurrence_encrypt (flags : List String) (rest : List String) :
    lastOccurrence flags ("--encrypt" :: rest)
      = (lastOccurrence flags rest).or
          (if "--encrypt" ∈ flags then some ("--encrypt", none) else none) :=
  lastOccurrence_plain flags "--encrypt" rest (by decide)

theorem lastOccurrence_decrypt (flags : List String) (rest : List String) :
    lastOccurrence flags ("--decrypt" :: rest)
      = (lastOccurrence flags rest).or
          (if "--decrypt" ∈ flags then some ("--decrypt", none) else none) :=
  lastOccurrence_plain flags "--decrypt" rest (by decide)

theorem elim_or_some {α β : Type} (x : Option α) (o : α) (d : β) (f : α → β) :
    (x.or (some o)).elim d f = x.elim (f o) f := by
  cases x <;> rfl

/-- Last occurrence wins, on the tokens after the program name. -/
theorem scanTokens_last_wins :
    ∀ (tokens : List String) (s0 s : ProgramSettings),
      scanTokens tokens s0 = LoopExit.finished s →
      (lastOccurrence ["-i"] tokens).elim (some s0.inputFile) Prod.snd = some s.inputFile
      ∧ (lastOccurrence ["-o"] tokens).elim (some s0.outputFile) Prod.snd = some s.outputFile
      ∧ (lastOccurrence ["-k"] tokens).elim (some s0.cipherKey) Prod.snd = some s.cipherKey
      ∧ (lastOccurrence ["-c"] tokens).elim (some s0.cipherType)
          (fun o => o.2.bind cipherTypeOfName) = some s.cipherType
      ∧ (lastOccurrence ["--encrypt", "--decrypt"] tokens).elim (some s0.cipherMode)
          (fun o => cipherModeOfFlag o.1) = some s.cipherMode := by
  intro tokens
  induction tokens using tokens_induction with
  | h0 =>
    intro s0 s h
    rw [scanTokens] at h
    cases h
    simp [lastOccurrence, flagOccurrences]
  | h1 arg =>
    intro s0 s h
    rcases token_cases arg with c | rfl | rfl | rfl | rfl | rfl | rfl | rfl | c
    · rw [scanTokens_help _ _ _ c] at h; cases h
    · rw [scanTokens_version] at h; cases h
    · rw [scanTokens_input_last] at h; cases h
    · rw [scanTokens_output_last] at h; cases h
    · rw [scanTokens_key_last] at h; cases h
    · rw [scanTokens_encrypt, scanTokens] at h; cases h
      simp [lastOccurrence, flagOccurrences, cipherModeOfFlag]
    · rw [scanTokens_decrypt, scanTokens] at h; cases h
      simp [lastOccurrence, flagOccurrences, cipherModeOfFlag]
    · rw [scanTokens_cipher_last] at h; cases h
    · rw [scanTokens_unknown _ _ _ c] at h; cases h
  | h2 arg value rest ih1 ih2 =>
    intro s0 s h
    rcases token_cases arg with c | rfl | rfl | rfl | rfl | rfl | rfl | rfl | c
    · rw [scanTokens_help _ _ _ c] at h; cases h
    · rw [scanTokens_version] at h; cases h
    · rw [scanTokens_input] at h
      simpa [lastOccurrence_input, elim_or_some] using ih1 _ _ h
    · rw [scanTokens_output] at h
      simpa [lastOccurrence_output, elim_or_some] using ih1 _ _ h
    · rw [scanTokens_key] at h
      simpa [lastOccurrence_key, elim_or_some] using ih1 _ _ h
    · rw [scanTokens_encrypt] at h
      simpa [lastOccurrence_encrypt, elim_or_some, cipherModeOfFlag] using ih2 _ _ h
    · rw [scanTokens_decrypt] at h
      simpa [lastOccurrence_decrypt, elim_or_some, cipherModeOfFlag] using ih2 _ _ h
    · rw [scanTokens_cipher] at h
      split_ifs at h with c1 c2 c3
      · simpa [lastOccurrence_cipher, elim_or_some, cipherTypeOfName, c1] using ih1 _ _ h
      · simpa [lastOccurrence_cipher, elim_or_some, cipherTypeOfName, c1, c2] using ih1 _ _ h
      · simpa [lastOccurrence_cipher, elim_or_some, cipherTypeOfName, c1, c2, c3]
          using ih1 _ _ h
    · rw [scanTokens_unknown _ _ _ c] at h; cases h

/-- C9: last occurrence wins. If the loop scans the vector to its end, without exception
and without `break`, then `inputFile`, `outputFile` and `cipherKey` are the values of
the last `-i`, `-o`, `-k` in flag position, `cipherType` is the cipher named by the
value of the last `-c` in flag position, and `cipherMode` is the mode named by the last
of `--encrypt`, `--decrypt` in flag position; a field whose flag does not occur in flag
position has its initial value. -/
theorem processCommandLine_last_occurrence_wins (cmdLineArgs : List String)
    (s0 s : ProgramSettings) (hsize : cmdLineArgs.length < 2 ^ 64)
    (hscan : scanCommandLine cmdLineArgs s0 = some (LoopExit.finished s)) :
    (lastOccurrence ["-i"] (cmdLineArgs.drop 1)).elim (some s0.inputFile) Prod.snd
        = some s.inputFile
      ∧ (lastOccurrence ["-o"] (cmdLineArgs.drop 1)).elim (some s0.outputFile) Prod.snd
        = some s.outputFile
      ∧ (lastOccurrence ["-k"] (cmdLineArgs.drop 1)).elim (some s0.cipherKey) Prod.snd
        = some s.cipherKey
      ∧ (lastOccurrence ["-c"] (cmdLineArgs.drop 1)).elim (some s0.cipherType)
          (fun o => o.2.bind cipherTypeOfName) = some s.cipherType
      ∧ (lastOccurrence ["--encrypt", "--decrypt"] (cmdLineArgs.drop 1)).elim
          (some s0.cipherMode) (fun o => cipherModeOfFlag o.1) = some s.cipherMode :=
  scanTokens_last_wins (cmdLineArgs.drop 1) s0 s (scanTokens_of_scanCommandLine hsize hscan)

/-- Witness of C9 at `prog -k 1 --decrypt -k 2 --encrypt`: the key is `2`, from the
second `-k`, and the mode is Encrypt, from the final `--encrypt`. -/
theorem processCommandLine_last_occurrence_wins_witness :
    scanCommandLine ["prog", "-k", "1", "--decrypt", "-k", "2", "--encrypt"] defaultSettings
        = some (LoopExit.finished
            { defaultSettings with cipherKey := "2", cipherMode := CipherMode.Encrypt })
      ∧ lastOccurrence ["-k"] ["-k", "1", "--decrypt", "-k", "2", "--encrypt"]
        = some ("-k", some "2")
      ∧ lastOccurrence ["--encrypt", "--decrypt"]
          ["-k", "1", "--decrypt", "-k", "2", "--encrypt"] = some ("--encrypt", none)
      ∧ (lastOccurrence ["-k"] ["-k", "1", "--decrypt", "-k", "2", "--encrypt"]).elim
          (some "") Prod.snd = some "2"
      ∧ (lastOccurrence ["--encrypt", "--decrypt"]
          ["-k", "1", "--decrypt", "-k", "2", "--encrypt"]).elim
          (some CipherMode.Encrypt) (fun o => cipherModeOfFlag o.1)
        = some CipherMode.Encrypt := by
  have key := processCommandLine_last_occurrence_wins
    ["prog", "-k", "1", "--decrypt", "-k", "2", "--encrypt"] defaultSettings
    { defaultSettings with cipherKey := "2", cipherMode := CipherMode.Encrypt }
    (by decide) (by decide)
  exact ⟨by decide, by decide, by decide, key.2.2.1, key.2.2.2.2⟩

/-! ## Frame -/

theorem Frame.refl (tokens : List String) (a : ProgramSettings) : Frame tokens a a :=
  ⟨fun _ => rfl, fun _ => rfl, fun _ => rfl, fun _ => rfl, fun _ _ => rfl, fun _ _ => rfl,
    fun _ => rfl⟩

/-- A first step within the frame of `tokens`, followed by a scan within the frame of
some of these tokens, stays within the frame of `tokens`. -/
theorem Frame.step {tokens rest : List String} {a b c : ProgramSettings}
    (hsub : ∀ f, f ∈ rest → f ∈ tokens) (hab : Frame tokens a b) (hbc : Frame rest b c) :
    Frame tokens a c := by
  obtain ⟨a1, a2, a3, a4, a5, a6, a7⟩ := hab
  obtain ⟨b1, b2, b3, b4, b5, b6, b7⟩ := hbc
  exact ⟨fun h => (b1 fun m => h (hsub _ m)).trans (a1 h),
    fun h => (b2 fun m => h (hsub _ m)).trans (a2 h),
    fun h => (b3 fun m => h (hsub _ m)).trans (a3 h),
    fun h => (b4 fun m => h (hsub _ m)).trans (a4 h),
    fun h h' => (b5 (fun m => h (hsub _ m)) (fun m => h' (hsub _ m))).trans (a5 h h'),
    fun h h' => (b6 (fun m => h (hsub _ m)) (fun m => h' (hsub _ m))).trans (a6 h h'),
    fun h => (b7 fun m => h (hsub _ m)).trans (a7 h)⟩

theorem Frame.help (tokens : List String) (a : ProgramSettings)
    (h : "-h" ∈ tokens ∨ "--help" ∈ tokens) :
    Frame tokens a { a with helpRequested := true } :=
  ⟨fun _ => rfl, fun _ => rfl, fun _ => rfl, fun _ => rfl, fun _ _ => rfl,
    fun h1 h2 => absurd h (not_or.mpr ⟨h1, h2⟩), fun _ => rfl⟩

theorem Frame.version (tokens : List String) (a : ProgramSettings)
    (h : "--version" ∈ tokens) : Frame tokens a { a with versionRequested := true } :=
  ⟨fun _ => rfl, fun _ => rfl, fun _ => rfl, fun _ => rfl, fun _ _ => rfl, fun _ _ => rfl,
    fun h1 => absurd h h1⟩

theorem Frame.input (tokens : List String) (a : ProgramSettings) (v : String)
    (h : "-i" ∈ tokens) : Frame tokens a { a with inputFile := v } :=
  ⟨fun h1 => absurd h h1, fun _ => rfl, fun _ => rfl, fun _ => rfl, fun _ _ => rfl,
    fun _ _ => rfl, fun _ => rfl⟩

theorem Frame.output (tokens : List String) (a : ProgramSettings) (v : String)
    (h : "-o" ∈ tokens) : Frame tokens a { a with outputFile := v } :=
  ⟨fun _ => rfl, fun h1 => absurd h h1, fun _ => rfl, fun _ => rfl, fun _ _ => rfl,
    fun _ _ => rfl, fun _ => rfl⟩

theorem Frame.key (tokens : List String) (a : ProgramSettings) (v : String)
    (h : "-k" ∈ tokens) : Frame tokens a { a with cipherKey := v } :=
  ⟨fun _ => rfl, fun _ => rfl, fun h1 => absurd h h1, fun _ => rfl, fun _ _ => rfl,
    fun _ _ => rfl, fun _ => rfl⟩

theorem Frame.cipher (tokens : List String) (a : ProgramSettings) (c : CipherType)
    (h : "-c" ∈ tokens) : Frame tokens a { a with cipherType := c } :=
  ⟨fun _ => rfl, fun _ => rfl, fun _ => rfl, fun h1 => absurd h h1, fun _ _ => rfl,
    fun _ _ => rfl, fun _ => rfl⟩

theorem Frame.mode (tokens : List String) (a : ProgramSettings) (m : CipherMode)
    (h : "--encrypt" ∈ tokens ∨ "--decrypt" ∈ tokens) :
    Frame tokens a { a with cipherMode := m } :=
  ⟨fun _ => rfl, fun _ => rfl, fun _ => rfl, fun _ => rfl,
    fun h1 h2 => absurd h (not_or.mpr ⟨h1, h2⟩), fun _ _ => rfl, fun _ => rfl⟩

/-- A field is changed only by its own flag, on the tokens after the program name. -/
theorem scanTokens_frame :
    ∀ (tokens : List String) (s0 s : ProgramSettings),
      (scanTokens tokens s0).toOutcome = Outcome.returned s → Frame tokens s0 s := by
  intro tokens
  induction tokens using tokens_induction with
  | h0 =>
    intro s0 s h
    rw [scanTokens] at h
    cases h
    exact Frame.refl _ _
  | h1 arg =>
    intro s0 s h
    rcases token_cases arg with c | rfl | rfl | rfl | rfl | rfl | rfl | rfl | c
    · rw [scanTokens_help _ _ _ c] at h; cases h
      exact Frame.help _ _ (by rcases c with rfl | rfl <;> simp)
    · rw [scanTokens_version] at h; cases h
      exact Frame.version _ _ (by simp)
    · rw [scanTokens_input_last] at h; cases h
    · rw [scanTokens_output_last] at h; cases h
    · rw [scanTokens_key_last] at h; cases h
    · rw [scanTokens_encrypt, scanTokens] at h; cases h
      exact Frame.mode _ _ _ (by simp)
    · rw [scanTokens_decrypt, scanTokens] at h; cases h
      exact Frame.mode _ _ _ (by simp)
    · rw [scanTokens_cipher_last] at h; cases h
    · rw [scanTokens_unknown _ _ _ c] at h; cases h
  | h2 arg value rest ih1 ih2 =>
    intro s0 s h
    have hsub1 : ∀ f, f ∈ rest → f ∈ arg :: value :: rest :=
      fun f m => List.mem_cons_of_mem _ (List.mem_cons_of_mem _ m)
    have hsub2 : ∀ f, f ∈ value :: rest → f ∈ arg :: value :: rest :=
      fun f m => List.mem_cons_of_mem _ m
    rcases token_cases arg with c | rfl | rfl | rfl | rfl | rfl | rfl | rfl | c
    · rw [scanTokens_help _ _ _ c] at h; cases h
      exact Frame.help _ _ (by rcases c with rfl | rfl <;> simp)
    · rw [scanTokens_version] at h; cases h
      exact Frame.version _ _ (by simp)
    · rw [scanTokens_input] at h
      exact Frame.step hsub1 (Frame.input _ _ _ (by simp)) (ih1 _ _ h)
    · rw [scanTokens_output] at h
      exact Frame.step hsub1 (Frame.output _ _ _ (by simp)) (ih1 _ _ h)
    · rw [scanTokens_key] at h
      exact Frame.step hsub1 (Frame.key _ _ _ (by simp)) (ih1 _ _ h)
    · rw [scanTokens_encrypt] at h
      exact Frame.step hsub2 (Frame.mode _ _ _ (by simp)) (ih2 _ _ h)
    · rw [scanTokens_decrypt] at h
      exact Frame.step hsub2 (Frame.mode _ _ _ (by simp)) (ih2 _ _ h)
    · rw [scanTokens_cipher] at h
      split_ifs at h
      · exact Frame.step hsub1 (Frame.cipher _ _ _ (by simp)) (ih1 _ _ h)
      · exact Frame.step hsub1 (Frame.cipher _ _ _ (by simp)) (ih1 _ _ h)
      · exact Frame.step hsub1 (Frame.cipher _ _ _ (by simp)) (ih1 _ _ h)
      · cases h
    · rw [scanTokens_unknown _ _ _ c] at h; cases h

/-- C10: each field of the settings is changed only by its own flag. If the call
returns and no token of the vector equals `-i`, then `inputFile` has its initial value;
likewise `-o` for `outputFile`, `-k` for `cipherKey`, `-c` for `cipherType`,
`--encrypt` and `--decrypt` for `cipherMode`, `-h` and `--help` for `helpRequested`,
`--version` for `versionRequested`. -/
theorem processCommandLine_frame (cmdLineArgs : List String) (s0 s : ProgramSettings)
    (hsize : cmdLineArgs.length < 2 ^ 64)
    (hret : processCommandLine cmdLineArgs s0 = some (Outcome.returned s)) :
    ("-i" ∉ cmdLineArgs → s.inputFile = s0.inputFile)
      ∧ ("-o" ∉ cmdLineArgs → s.outputFile = s0.outputFile)
      ∧ ("-k" ∉ cmdLineArgs → s.cipherKey = s0.cipherKey)
      ∧ ("-c" ∉ cmdLineArgs → s.cipherType = s0.cipherType)
      ∧ ("--encrypt" ∉ cmdLineArgs → "--decrypt" ∉ cmdLineArgs
          → s.cipherMode = s0.cipherMode)
      ∧ ("-h" ∉ cmdLineArgs → "--help" ∉ cmdLineArgs
          → s.helpRequested = s0.helpRequested)
      ∧ ("--version" ∉ cmdLineArgs → s.versionRequested = s0.versionRequested) := by
  rw [processCommandLine_eq _ hsize] at hret
  have hdrop : ∀ f : String, f ∉ cmdLineArgs → f ∉ cmdLineArgs.drop 1 :=
    fun f hf hmem => hf (List.mem_of_mem_drop hmem)
  obtain ⟨i1, i2, i3, i4, i5, i6, i7⟩ :=
    scanTokens_frame (cmdLineArgs.drop 1) s0 s (Option.some.inj hret)
  exact ⟨fun h => i1 (hdrop _ h), fun h => i2 (hdrop _ h), fun h => i3 (hdrop _ h),
    fun h => i4 (hdrop _ h), fun h h' => i5 (hdrop _ h) (hdrop _ h'),
    fun h h' => i6 (hdrop _ h) (hdrop _ h'), fun h => i7 (hdrop _ h)⟩

/-- Witness of C10 at `prog`, with no flags: the call returns the settings built in
`main` unchanged: no input file, no output file, empty key, Encrypt, Caesar, help and
version not requested. -/
theorem processCommandLine_frame_witness :
    processCommandLine ["prog"] defaultSettings = some (Outcome.returned defaultSettings)
      ∧ defaultSettings
        = { helpRequested := false, versionRequested := false, inputFile := "",
            outputFile := "", cipherKey := "", cipherMode := CipherMode.Encrypt,
            cipherType := CipherType.Caesar }
      ∧ (("-i" ∉ ["prog"] → defaultSettings.inputFile = defaultSettings.inputFile)
        ∧ ("-o" ∉ ["prog"] → defaultSettings.outputFile = defaultSettings.outputFile)
        ∧ ("-k" ∉ ["prog"] → defaultSettings.cipherKey = defaultSettings.cipherKey)
        ∧ ("-c" ∉ ["prog"] → defaultSettings.cipherType = defaultSettings.cipherType)
        ∧ ("--encrypt" ∉ ["prog"] → "--decrypt" ∉ ["prog"]
            → defaultSettings.cipherMode = defaultSettings.cipherMode)
        ∧ ("-h" ∉ ["prog"] → "--help" ∉ ["prog"]
            → defaultSettings.helpRequested = defaultSettings.helpRequested)
        ∧ ("--version" ∉ ["prog"]
            → defaultSettings.versionRequested = defaultSettings.versionRequested)) :=
  ⟨by decide, rfl,
    processCommandLine_frame ["prog"] defaultSettings defaultSettings (by decide) (by decide)⟩

/-! ## Arithmetic of the chunks -/

theorem sizeSub_nThreads : sizeSub nThreads 1 = 3 := by decide

theorem chunkStart_eq {inLen : Nat} (hL : inLen < 2 ^ 64) {i : Nat} (hi : i ≤ 3) :
    chunkStart inLen i = inLen / 4 * i := by
  unfold chunkStart div nThreads
  apply sizeT_of_lt
  have h1 : inLen / 4 * i ≤ inLen / 4 * 3 := Nat.mul_le_mul_left _ hi
  have h2 : inLen / 4 * 3 ≤ inLen := by omega
  omega

theorem chunkLength_of_lt (inLen : Nat) {i : Nat} (hi : i < 3) :
    chunkLength inLen i = inLen / 4 := by
  unfold chunkLength
  rw [sizeSub_nThreads, if_pos (by omega)]
  rfl

theorem chunkLength_three {inLen : Nat} (hL : inLen < 2 ^ 64) :
    chunkLength inLen 3 = inLen / 4 + inLen % 4 := by
  unfold chunkLength
  rw [sizeSub_nThreads, if_neg (by simp)]
  unfold last div nThreads
  apply sizeT_of_lt
  omega

theorem chunk_eq_of_lt (inputText : List Char) (hL : inputText.length < 2 ^ 64) {i : Nat}
    (hi : i < 3) :
    chunk inputText i
      = some ((inputText.drop (inputText.length / 4 * i)).take (inputText.length / 4)) := by
  unfold chunk substr
  rw [chunkStart_eq hL (by omega), chunkLength_of_lt _ hi, if_neg]
  have h1 : inputText.length / 4 * i ≤ inputText.length / 4 * 3 :=
    Nat.mul_le_mul_left _ (by omega)
  omega

theorem chunk_eq_three (inputText : List Char) (hL : inputText.length < 2 ^ 64) :
    chunk inputText 3 = some (inputText.drop (inputText.length / 4 * 3)) := by
  unfold chunk substr
  rw [chunkStart_eq hL (by omega), chunkLength_three hL, if_neg (by omega)]
  congr 1
  apply List.take_of_length_le
  rw [List.length_drop]
  omega

/-- The four chunks, written out. -/
theorem chunks_eq (inputText : List Char) (hL : inputText.length < 2 ^ 64) :
    chunks inputText
      = some [inputText.take (inputText.length / 4),
          (inputText.drop (inputText.length / 4)).take (inputText.length / 4),
          (inputText.drop (inputText.length / 4 * 2)).take (inputText.length / 4),
          inputText.drop (inputText.length / 4 * 3)] := by
  have h0 := chunk_eq_of_lt inputText hL (show 0 < 3 by omega)
  have h1 := chunk_eq_of_lt inputText hL (show 1 < 3 by omega)
  have h2 := chunk_eq_of_lt inputText hL (show 2 < 3 by omega)
  have h3 := chunk_eq_three inputText hL
  have hr : List.range nThreads = [0, 1, 2, 3] := by decide
  unfold chunks
  rw [hr]
  simp [List.mapM, List.mapM.loop, h0, h1, h2, h3]

/-- Four consecutive slices of equal width, the last one to the end, make up the text. -/
theorem slices_append (inputText : List Char) (d : Nat) :
    inputText.take d ++ (inputText.drop d).take d ++ (inputText.drop (d * 2)).take d
      ++ inputText.drop (d * 3) = inputText := by
  have e2 : inputText.drop (d * 2) = (inputText.drop d).drop d := by
    rw [List.drop_drop]; congr 1; omega
  have e3 : inputText.drop (d * 3) = ((inputText.drop d).drop d).drop d := by
    rw [List.drop_drop, List.drop_drop]; congr 1; omega
  rw [e2, e3, List.append_assoc, List.append_assoc, List.take_append_drop,
    List.take_append_drop, List.take_append_drop]

/-- The positions of the chunks: the first starts at 0, each starts where the one
before it ends, and the last ends at the end of the text. -/
theorem chunk_bounds {inLen : Nat} (hL : inLen < 2 ^ 64) :
    chunkStart inLen 0 = 0
      ∧ (∀ i, i < 3 → chunkStart inLen (i + 1) = chunkStart inLen i + chunkLength inLen i)
      ∧ chunkStart inLen 3 + chunkLength inLen 3 = inLen := by
  refine ⟨by rw [chunkStart_eq hL (by omega)]; omega, ?_, ?_⟩
  · intro i hi
    rw [chunkStart_eq hL (by omega), chunkStart_eq hL (by omega), chunkLength_of_lt _ hi,
      Nat.mul_succ]
  · rw [chunkStart_eq hL (by omega), chunkLength_three hL]
    omega

theorem futures_eq (applyCipher : List Char → CipherMode → List Char)
    (cipherMode : CipherMode) (inputText : List Char) (hL : inputText.length < 2 ^ 64) :
    futures applyCipher cipherMode inputText
      = some [applyCipher (inputText.take (inputText.length / 4)) cipherMode,
          applyCipher ((inputText.drop (inputText.length / 4)).take (inputText.length / 4))
            cipherMode,
          applyCipher ((inputText.drop (inputText.length / 4 * 2)).take
            (inputText.length / 4)) cipherMode,
          applyCipher (inputText.drop (inputText.length / 4 * 3)) cipherMode] := by
  unfold futures
  rw [chunks_eq inputText hL]
  rfl

theorem chunkedTransform_eq (applyCipher : List Char → CipherMode → List Char)
    (cipherMode : CipherMode) (inputText : List Char) (hL : inputText.length < 2 ^ 64) :
    chunkedTransform applyCipher cipherMode inputText
      = some (applyCipher (inputText.take (inputText.length / 4)) cipherMode
          ++ applyCipher ((inputText.drop (inputText.length / 4)).take
            (inputText.length / 4)) cipherMode
          ++ applyCipher ((inputText.drop (inputText.length / 4 * 2)).take
            (inputText.length / 4)) cipherMode
          ++ applyCipher (inputText.drop (inputText.length / 4 * 3)) cipherMode) := by
  unfold chunkedTransform
  rw [futures_eq applyCipher cipherMode inputText hL]
  simp [outputText]

/-- C11: the four chunks `main` cuts from a text are the slices at the positions
`chunkStart`, of the lengths `chunkLength`; the first starts at 0, each starts where the
one before it ends, the last ends at the end of the text, and the chunks put together
in index order are the text. -/
theorem chunks_partition (inputText : List Char) (hL : inputText.length < 2 ^ 64) :
    ∃ c0 c1 c2 c3, chunks inputText = some [c0, c1, c2, c3]
      ∧ c0 ++ c1 ++ c2 ++ c3 = inputText
      ∧ (∀ i c, [c0, c1, c2, c3][i]? = some c →
          c = (inputText.drop (chunkStart inputText.length i)).take
                (chunkLength inputText.length i)
            ∧ c.length = chunkLength inputText.length i)
      ∧ chunkStart inputText.length 0 = 0
      ∧ (∀ i, i < 3 → chunkStart inputText.length (i + 1)
          = chunkStart inputText.length i + chunkLength inputText.length i)
      ∧ chunkStart inputText.length 3 + chunkLength inputText.length 3
          = inputText.length := by
  refine ⟨_, _, _, _, chunks_eq inputText hL, slices_append inputText _, ?_,
    chunk_bounds hL⟩
  have hdiv : inputText.length / 4 * 3 ≤ inputText.length := by omega
  intro i c hc
  match i, hc with
  | 0, hc =>
    simp only [List.getElem?_cons_zero, Option.some.injEq] at hc
    subst hc
    rw [chunkStart_eq hL (by omega), chunkLength_of_lt _ (by omega)]
    simp only [Nat.mul_zero, List.drop_zero, List.length_take, true_and]
    omega
  | 1, hc =>
    simp only [List.getElem?_cons_succ, List.getElem?_cons_zero, Option.some.injEq] at hc
    subst hc
    rw [chunkStart_eq hL (by omega), chunkLength_of_lt _ (by omega)]
    simp only [Nat.mul_one, List.length_take, List.length_drop, true_and]
    omega
  | 2, hc =>
    simp only [List.getElem?_cons_succ, List.getElem?_cons_zero, Option.some.injEq] at hc
    subst hc
    rw [chunkStart_eq hL (by omega), chunkLength_of_lt _ (by omega)]
    simp only [List.length_take, List.length_drop, true_and]
    omega
  | 3, hc =>
    simp only [List.getElem?_cons_succ, List.getElem?_cons_zero, Option.some.injEq] at hc
    subst hc
    rw [chunkStart_eq hL (by omega), chunkLength_three hL]
    have hlen : (inputText.drop (inputText.length / 4 * 3)).length
        = inputText.length / 4 + inputText.length % 4 := by
      rw [List.length_drop]; omega
    exact ⟨(List.take_of_length_le (by omega)).symm, hlen⟩
  | n + 4, hc => simp at hc

/-- Witness of C11 at a text of ten characters. -/
theorem chunks_partition_witness :
    "ABCDEFGHIJ".toList.length < 2 ^ 64
      ∧ chunks "ABCDEFGHIJ".toList
        = some ["AB".toList, "CD".toList, "EF".toList, "GHIJ".toList]
      ∧ ∃ c0 c1 c2 c3, chunks "ABCDEFGHIJ".toList = some [c0, c1, c2, c3]
        ∧ c0 ++ c1 ++ c2 ++ c3 = "ABCDEFGHIJ".toList :=
  ⟨by decide, by decide,
    let ⟨c0, c1, c2, c3, h, happ, _⟩ := chunks_partition "ABCDEFGHIJ".toList (by decide)
    ⟨c0, c1, c2, c3, h, happ⟩⟩

/-- C12: the arithmetic of the partition for four workers. With `base` the quotient of
the length by 4, the segments of index below 3 start at `base * i` and have length
`base`; the segment of index 3 starts at `base * 3` and has length `base` plus the
remainder of the length by 4. The first segment starts at 0, each starts where the
one before it ends, the last ends at the length, and the lengths add up to it. -/
theorem partition_arithmetic (inLen : Nat) (hL : inLen < 2 ^ 64) :
    (∀ i, i < 3 → chunkStart inLen i = inLen / 4 * i ∧ chunkLength inLen i = inLen / 4)
      ∧ chunkStart inLen 3 = inLen / 4 * 3
      ∧ chunkLength inLen 3 = inLen / 4 + inLen % 4
      ∧ chunkStart inLen 0 = 0
      ∧ (∀ i, i < 3 → chunkStart inLen (i + 1) = chunkStart inLen i + chunkLength inLen i)
      ∧ chunkStart inLen 3 + chunkLength inLen 3 = inLen
      ∧ chunkLength inLen 0 + chunkLength inLen 1 + chunkLength inLen 2
          + chunkLength inLen 3 = inLen := by
  refine ⟨fun i hi => ⟨chunkStart_eq hL (by omega), chunkLength_of_lt _ hi⟩,
    chunkStart_eq hL (by omega), chunkLength_three hL, (chunk_bounds hL).1,
    (chunk_bounds hL).2.1, (chunk_bounds hL).2.2, ?_⟩
  rw [chunkLength_of_lt _ (by omega), chunkLength_of_lt _ (by omega),
    chunkLength_of_lt _ (by omega), chunkLength_three hL]
  omega

/-- Witness of C12: for length 10 the segment lengths are 2, 2, 2, 4, and for length 0
all four segments are empty. -/
theorem partition_arithmetic_witness :
    (10 : Nat) < 2 ^ 64
      ∧ (List.range nThreads).map (chunkLength 10) = [2, 2, 2, 4]
      ∧ (List.range nThreads).map (chunkStart 10) = [0, 2, 4, 6]
      ∧ (List.range nThreads).map (chunkLength 0) = [0, 0, 0, 0]
      ∧ chunkLength 10 0 + chunkLength 10 1 + chunkLength 10 2 + chunkLength 10 3 = 10 :=
  ⟨by decide, by decide, by decide, by decide,
    (partition_arithmetic 10 (by decide)).2.2.2.2.2.2⟩

/-- Four pieces of which the first three have the same length `k` and the last has
`k` and fewer than four characters more are the chunks of the text they make up. -/
theorem chunks_of_parts (a b c e : List Char) (k r : Nat) (ha : a.length = k)
    (hb : b.length = k) (hc : c.length = k) (he : e.length = k + r) (hr : r < 4)
    (hL : (a ++ b ++ c ++ e).length < 2 ^ 64) :
    chunks (a ++ b ++ c ++ e) = some [a, b, c, e] := by
  have hlen : (a ++ b ++ c ++ e).length = 4 * k + r := by
    simp only [List.length_append, ha, hb, hc, he]; omega
  have hdiv : (a ++ b ++ c ++ e).length / 4 = k := by
    rw [hlen]; omega
  rw [chunks_eq _ hL, hdiv]
  have e1 : a ++ b ++ c ++ e = a ++ (b ++ (c ++ e)) := by
    simp only [List.append_assoc]
  have d1 : (a ++ (b ++ (c ++ e))).drop k = b ++ (c ++ e) := List.drop_left' ha
  have d2 : (a ++ (b ++ (c ++ e))).drop (k * 2) = c ++ e := by
    have : k * 2 = k + k := by omega
    rw [this, ← List.drop_drop, d1, List.drop_left' hb]
  have d3 : (a ++ (b ++ (c ++ e))).drop (k * 3) = e := by
    have : k * 3 = k * 2 + k := by omega
    rw [this, ← List.drop_drop, d2, List.drop_left' hc]
  rw [e1, d1, d2, d3, List.take_left' ha, List.take_left' hb, List.take_left' hc]

/-- C13, counterexample: the doubling cipher undoes itself on every text, yet the
chunked transform in Encrypt mode takes `AB` to `ABAB`, and the chunked transform in
Decrypt mode takes `ABAB` to the empty text, not back to `AB`. -/
theorem chunked_round_trip_counterexample :
    (∀ t, doublingCipher (doublingCipher t CipherMode.Encrypt) CipherMode.Decrypt = t)
      ∧ chunkedTransform doublingCipher CipherMode.Encrypt ['A', 'B']
        = some ['A', 'B', 'A', 'B']
      ∧ chunkedTransform doublingCipher CipherMode.Decrypt ['A', 'B', 'A', 'B'] = some []
      ∧ chunkedTransform doublingCipher CipherMode.Decrypt ['A', 'B', 'A', 'B']
        ≠ some ['A', 'B'] := by
  refine ⟨?_, by decide, by decide, by decide⟩
  intro t
  simp only [doublingCipher, List.length_append]
  have : (t.length + t.length) / 2 = t.length := by omega
  rw [this, List.take_left' rfl]

/-- C13, amended: for a cipher that undoes itself and whose encryption keeps the
number of characters, the chunked transform in Encrypt mode followed by the chunked
transform in Decrypt mode on its output gives back the text. -/
theorem chunked_round_trip (applyCipher : List Char → CipherMode → List Char)
    (hround : ∀ t, applyCipher (applyCipher t CipherMode.Encrypt) CipherMode.Decrypt = t)
    (hcount : ∀ t, (applyCipher t CipherMode.Encrypt).length = t.length)
    (inputText : List Char) (hL : inputText.length < 2 ^ 64) :
    ∃ out, chunkedTransform applyCipher CipherMode.Encrypt inputText = some out
      ∧ chunkedTransform applyCipher CipherMode.Decrypt out = some inputText := by
  refine ⟨_, chunkedTransform_eq applyCipher CipherMode.Encrypt inputText hL, ?_⟩
  have hdiv : inputText.length / 4 * 3 ≤ inputText.length := by omega
  have hparts := chunks_of_parts
    (applyCipher (inputText.take (inputText.length / 4)) CipherMode.Encrypt)
    (applyCipher ((inputText.drop (inputText.length / 4)).take (inputText.length / 4))
      CipherMode.Encrypt)
    (applyCipher ((inputText.drop (inputText.length / 4 * 2)).take (inputText.length / 4))
      CipherMode.Encrypt)
    (applyCipher (inputText.drop (inputText.length / 4 * 3)) CipherMode.Encrypt)
    (inputText.length / 4) (inputText.length % 4)
    (by rw [hcount, List.length_take]; omega)
    (by rw [hcount, List.length_take, List.length_drop]; omega)
    (by rw [hcount, List.length_take, List.length_drop]; omega)
    (by rw [hcount, List.length_drop]; omega)
    (Nat.mod_lt _ (by omega))
    (by simp only [List.length_append, hcount, List.length_take, List.length_drop]; omega)
  unfold chunkedTransform futures
  rw [hparts]
  simp only [Option.map_some', List.map_cons, List.map_nil, hround, outputText,
    List.foldl_cons, List.foldl_nil, List.nil_append]
  rw [slices_append]

/-- Witness of the amended C13: the cipher that leaves every text as it is. -/
theorem chunked_round_trip_witness :
    (∀ t : List Char, (fun (t : List Char) (_ : CipherMode) => t)
        ((fun (t : List Char) (_ : CipherMode) => t) t CipherMode.Encrypt)
        CipherMode.Decrypt = t)
      ∧ "ABCDEFGHIJ".toList.length < 2 ^ 64
      ∧ ∃ out, chunkedTransform (fun t _ => t) CipherMode.Encrypt "ABCDEFGHIJ".toList
          = some out
        ∧ chunkedTransform (fun t _ => t) CipherMode.Decrypt out
          = some "ABCDEFGHIJ".toList :=
  ⟨fun _ => rfl, by decide,
    chunked_round_trip (fun t _ => t) (fun _ => rfl) (fun _ => rfl) "ABCDEFGHIJ".toList
      (by decide)⟩

/-- C14: for a cipher that keeps the number of characters of its input, the chunked
transform returns a text, and this text has as many characters as the input. -/
theorem chunkedTransform_length (applyCipher : List Char → CipherMode → List Char)
    (hcount : ∀ t m, (applyCipher t m).length = t.length)
    (cipherMode : CipherMode) (inputText : List Char) (hL : inputText.length < 2 ^ 64) :
    ∃ out, chunkedTransform applyCipher cipherMode inputText = some out
      ∧ out.length = inputText.length := by
  refine ⟨_, chunkedTransform_eq applyCipher cipherMode inputText hL, ?_⟩
  simp only [List.length_append, hcount, List.length_take, List.length_drop]
  omega

/-- Witness of C14: with the cipher that leaves every text as it is, a text of ten
characters gives ten characters and the empty text gives the empty text. -/
theorem chunkedTransform_length_witness :
    (∀ (t : List Char) (m : CipherMode),
        ((fun (t : List Char) (_ : CipherMode) => t) t m).length = t.length)
      ∧ chunkedTransform (fun t _ => t) CipherMode.Encrypt [] = some []
      ∧ ∃ out, chunkedTransform (fun t _ => t) CipherMode.Encrypt "ABCDEFGHIJ".toList
          = some out
        ∧ out.length = 10 :=
  ⟨fun _ _ => rfl, by decide,
    chunkedTransform_length (fun t _ => t) (fun _ _ => rfl) CipherMode.Encrypt
      "ABCDEFGHIJ".toList (by decide)⟩

/-- C18: for a cipher that maps a text made of two parts to the two results put
together, the chunked transform gives what the cipher gives on the whole text. -/
theorem chunkedTransform_transparent (applyCipher : List Char → CipherMode → List Char)
    (hhom : ∀ a b m, applyCipher (a ++ b) m = applyCipher a m ++ applyCipher b m)
    (cipherMode : CipherMode) (inputText : List Char) (hL : inputText.length < 2 ^ 64) :
    chunkedTransform applyCipher cipherMode inputText
      = some (applyCipher inputText cipherMode) := by
  rw [chunkedTransform_eq applyCipher cipherMode inputText hL, ← hhom, ← hhom, ← hhom,
    slices_append]

/-- Witness of C18: a substitution character by character, here the change to lower
case, on a text of ten characters. -/
theorem chunkedTransform_transparent_witness :
    (∀ (a b : List Char) (m : CipherMode),
        (fun (t : List Char) (_ : CipherMode) => t.map Char.toLower) (a ++ b) m
          = (fun (t : List Char) (_ : CipherMode) => t.map Char.toLower) a m
            ++ (fun (t : List Char) (_ : CipherMode) => t.map Char.toLower) b m)
      ∧ chunkedTransform (fun t _ => t.map Char.toLower) CipherMode.Encrypt
          "ABCDEFGHIJ".toList = some ("ABCDEFGHIJ".toList.map Char.toLower) :=
  ⟨fun a b _ => List.map_append _ a b,
    chunkedTransform_transparent (fun t _ => t.map Char.toLower)
      (fun a b _ => List.map_append _ a b) CipherMode.Encrypt "ABCDEFGHIJ".toList
      (by decide)⟩

/-- C15, the code at the failing inputs: on `prog -x` and on `prog -c rot13` the
exception thrown by `processCommandLine` is not a `MissingArgument`, the only handler
of `main` does not catch it, and it leaves `main`; `main` returns 1 only for a
`MissingArgument`, as on `prog -i`. -/
theorem main_parse_error_uncaught :
    mainParseStage ["prog", "-x"]
        = some (ParseStage.uncaught (Exception.UnknownArgument "Not a valid argument"))
      ∧ mainParseStage ["prog", "-c", "rot13"]
        = some (ParseStage.uncaught (Exception.InvalidCipher "Unknown cipher type"))
      ∧ mainParseStage ["prog", "-i"] = some (ParseStage.exit 1) := by
  decide

/-- C17: token 0 is skipped. Two vectors that differ in their first element only have
the same outcome, whatever that element is. -/
theorem processCommandLine_skips_token_zero (p q : String) (rest : List String)
    (s0 : ProgramSettings) (hsize : rest.length + 1 < 2 ^ 64) :
    processCommandLine (p :: rest) s0 = processCommandLine (q :: rest) s0 := by
  rw [processCommandLine_eq (p :: rest) (by simpa using hsize),
    processCommandLine_eq (q :: rest) (by simpa using hsize)]
  rfl

/-- Witness of C17: with `--help`, `-i` or an unknown option as token 0 the outcome is
that with `prog` as token 0. -/
theorem processCommandLine_skips_token_zero_witness :
    ["-k", "3"].length + 1 < 2 ^ 64
      ∧ processCommandLine ["--help", "-k", "3"] defaultSettings
        = processCommandLine ["prog", "-k", "3"] defaultSettings
      ∧ processCommandLine ["-i", "-k", "3"] defaultSettings
        = processCommandLine ["prog", "-k", "3"] defaultSettings
      ∧ processCommandLine ["-x", "-k", "3"] defaultSettings
        = processCommandLine ["prog", "-k", "3"] defaultSettings
      ∧ processCommandLine ["prog", "-k", "3"] defaultSettings
        = some (Outcome.returned { defaultSettings with cipherKey := "3" }) :=
  ⟨by decide,
    processCommandLine_skips_token_zero "--help" "prog" ["-k", "3"] defaultSettings (by decide),
    processCommandLine_skips_token_zero "-i" "prog" ["-k", "3"] defaultSettings (by decide),
    processCommandLine_skips_token_zero "-x" "prog" ["-k", "3"] defaultSettings (by decide),
    by decide⟩

/-- The ways in which the recursion over the tokens ends: never with an access out of
range, and with no exception other than the three of `processCommandLine`. -/
theorem scanTokens_exit :
    ∀ (tokens : List String) (s0 : ProgramSettings),
      (∃ s, scanTokens tokens s0 = LoopExit.finished s)
      ∨ (∃ s, scanTokens tokens s0 = LoopExit.broke s)
      ∨ (∃ msg, scanTokens tokens s0 = LoopExit.threw (Exception.MissingArgument msg))
      ∨ (∃ msg, scanTokens tokens s0 = LoopExit.threw (Exception.UnknownArgument msg))
      ∨ (∃ msg, scanTokens tokens s0 = LoopExit.threw (Exception.InvalidCipher msg)) := by
  intro tokens
  induction tokens using tokens_induction with
  | h0 =>
    intro s0
    exact Or.inl ⟨s0, by rw [scanTokens]⟩
  | h1 arg =>
    intro s0
    rcases token_cases arg with c | rfl | rfl | rfl | rfl | rfl | rfl | rfl | c
    · exact Or.inr (Or.inl ⟨_, scanTokens_help _ _ _ c⟩)
    · exact Or.inr (Or.inl ⟨_, scanTokens_version _ _⟩)
    · exact Or.inr (Or.inr (Or.inl ⟨_, scanTokens_input_last _⟩))
    · exact Or.inr (Or.inr (Or.inl ⟨_, scanTokens_output_last _⟩))
    · exact Or.inr (Or.inr (Or.inl ⟨_, scanTokens_key_last _⟩))
    · exact Or.inl ⟨_, by rw [scanTokens_encrypt, scanTokens]⟩
    · exact Or.inl ⟨_, by rw [scanTokens_decrypt, scanTokens]⟩
    · exact Or.inr (Or.inr (Or.inl ⟨_, scanTokens_cipher_last _⟩))
    · exact Or.inr (Or.inr (Or.inr (Or.inl ⟨_, scanTokens_unknown _ _ _ c⟩)))
  | h2 arg value rest ih1 ih2 =>
    intro s0
    rcases token_cases arg with c | rfl | rfl | rfl | rfl | rfl | rfl | rfl | c
    · exact Or.inr (Or.inl ⟨_, scanTokens_help _ _ _ c⟩)
    · exact Or.inr (Or.inl ⟨_, scanTokens_version _ _⟩)
    · rw [scanTokens_input]; exact ih1 _
    · rw [scanTokens_output]; exact ih1 _
    · rw [scanTokens_key]; exact ih1 _
    · rw [scanTokens_encrypt]; exact ih2 _
    · rw [scanTokens_decrypt]; exact ih2 _
    · rw [scanTokens_cipher]
      split_ifs
      · exact ih1 _
      · exact ih1 _
      · exact ih1 _
      · exact Or.inr (Or.inr (Or.inr (Or.inr ⟨_, rfl⟩)))
    · exact Or.inr (Or.inr (Or.inr (Or.inl ⟨_, scanTokens_unknown _ _ _ c⟩)))

/-- C19: `processCommandLine` never reads outside the vector. For every vector, the
empty one included, the loop ends within its fuel of one execution of the body per
token, no access `cmdLineArgs[i]` or `cmdLineArgs[i + 1]` is out of range, and the
call returns the settings or throws one of `MissingArgument`, `UnknownArgument`,
`InvalidCipher`. -/
theorem processCommandLine_in_bounds (cmdLineArgs : List String) (s0 : ProgramSettings)
    (hsize : cmdLineArgs.length < 2 ^ 64) :
    (∃ e, forLoop cmdLineArgs cmdLineArgs.length cmdLineArgs.length 1 s0 = some e
        ∧ e ≠ LoopExit.outOfRange)
      ∧ processCommandLine cmdLineArgs s0 ≠ some Outcome.undefinedBehaviour
      ∧ ((∃ s, processCommandLine cmdLineArgs s0 = some (Outcome.returned s))
        ∨ (∃ msg, processCommandLine cmdLineArgs s0
            = some (Outcome.thrown (Exception.MissingArgument msg)))
        ∨ (∃ msg, processCommandLine cmdLineArgs s0
            = some (Outcome.thrown (Exception.UnknownArgument msg)))
        ∨ (∃ msg, processCommandLine cmdLineArgs s0
            = some (Outcome.thrown (Exception.InvalidCipher msg)))) := by
  have hloop := forLoop_eq_scanTokens cmdLineArgs hsize cmdLineArgs.length 1 s0 (by omega)
  have hpcl := processCommandLine_eq cmdLineArgs hsize s0
  rw [hloop, hpcl]
  rcases scanTokens_exit (cmdLineArgs.drop 1) s0 with
    ⟨s, h⟩ | ⟨s, h⟩ | ⟨msg, h⟩ | ⟨msg, h⟩ | ⟨msg, h⟩
  all_goals rw [h]
  · exact ⟨⟨_, rfl, by simp⟩, by simp [LoopExit.toOutcome], Or.inl ⟨s, rfl⟩⟩
  · exact ⟨⟨_, rfl, by simp⟩, by simp [LoopExit.toOutcome], Or.inl ⟨s, rfl⟩⟩
  · exact ⟨⟨_, rfl, by simp⟩, by simp [LoopExit.toOutcome], Or.inr (Or.inl ⟨msg, rfl⟩)⟩
  · exact ⟨⟨_, rfl, by simp⟩, by simp [LoopExit.toOutcome],
      Or.inr (Or.inr (Or.inl ⟨msg, rfl⟩))⟩
  · exact ⟨⟨_, rfl, by simp⟩, by simp [LoopExit.toOutcome],
      Or.inr (Or.inr (Or.inr ⟨msg, rfl⟩))⟩

/-- Witness of C19 at the empty vector, where `nCmdLineArgs - 1` is `2 ^ 64 - 1`: the
body is never executed and the call returns the settings unchanged. -/
theorem processCommandLine_in_bounds_witness :
    ([] : List String).length < 2 ^ 64
      ∧ sizeSub ([] : List String).length 1 = 2 ^ 64 - 1
      ∧ processCommandLine [] defaultSettings = some (Outcome.returned defaultSettings)
      ∧ processCommandLine ["prog", "-i"] defaultSettings
        = some (Outcome.thrown
            (Exception.MissingArgument "-i/--infile requires a filename argument"))
      ∧ processCommandLine [] defaultSettings ≠ some Outcome.undefinedBehaviour :=
  ⟨by decide, by decide, by decide, by decide,
    (processCommandLine_in_bounds [] defaultSettings (by decide)).2.1⟩

/-! ## First occurrence of a help or version flag -/

theorem firstOccurrence_value (flags : List String) (flag value : String) (rest : List String)
    (hflag : flag ∈ ["-i", "-o", "-k", "-c"]) :
    firstOccurrence flags (flag :: value :: rest)
      = if flag ∈ flags then some (flag, some value) else firstOccurrence flags rest := by
  unfold firstOccurrence
  rw [flagOccurrences, if_pos hflag, List.find?_cons]
  by_cases h : flag ∈ flags <;> simp [h]

theorem firstOccurrence_plain (flags : List String) (flag : String) (rest : List String)
    (hflag : flag ∉ ["-i", "-o", "-k", "-c"]) :
    firstOccurrence flags (flag :: rest)
      = if flag ∈ flags then some (flag, none) else firstOccurrence flags rest := by
  unfold firstOccurrence
  have e : flagOccurrences (flag :: rest) = (flag, none) :: flagOccurrences rest := by
    cases rest with
    | nil => simp [flagOccurrences]
    | cons v r => rw [flagOccurrences, if_neg hflag]
  rw [e, List.find?_cons]
  by_cases h : flag ∈ flags <;> simp [h]

/-- The help and version fields after the scan are decided by the first help or
version flag in flag position. -/
theorem scanTokens_first_help_or_version :
    ∀ (tokens : List String) (s0 s : ProgramSettings),
      (scanTokens tokens s0).toOutcome = Outcome.returned s →
      (firstOccurrence ["-h", "--help", "--version"] tokens).elim
          (s0.helpRequested, s0.versionRequested)
          (fun o => if o.1 = "--version" then (s0.helpRequested, true)
            else (true, s0.versionRequested))
        = (s.helpRequested, s.versionRequested) := by
  intro tokens
  induction tokens using tokens_induction with
  | h0 =>
    intro s0 s h
    rw [scanTokens] at h
    cases h
    rfl
  | h1 arg =>
    intro s0 s h
    rcases token_cases arg with c | rfl | rfl | rfl | rfl | rfl | rfl | rfl | c
    · rw [scanTokens_help _ _ _ c] at h; cases h
      rcases c with rfl | rfl <;>
        (rw [firstOccurrence_plain _ _ _ (by decide)]; simp)
    · rw [scanTokens_version] at h; cases h
      rw [firstOccurrence_plain _ _ _ (by decide)]; simp
    · rw [scanTokens_input_last] at h; cases h
    · rw [scanTokens_output_last] at h; cases h
    · rw [scanTokens_key_last] at h; cases h
    · rw [scanTokens_encrypt, scanTokens] at h; cases h
      simp [firstOccurrence, flagOccurrences]
    · rw [scanTokens_decrypt, scanTokens] at h; cases h
      simp [firstOccurrence, flagOccurrences]
    · rw [scanTokens_cipher_last] at h; cases h
    · rw [scanTokens_unknown _ _ _ c] at h; cases h
  | h2 arg value rest ih1 ih2 =>
    intro s0 s h
    rcases token_cases arg with c | rfl | rfl | rfl | rfl | rfl | rfl | rfl | c
    · rw [scanTokens_help _ _ _ c] at h; cases h
      rcases c with rfl | rfl <;>
        (rw [firstOccurrence_plain _ _ _ (by decide)]; simp)
    · rw [scanTokens_version] at h; cases h
      rw [firstOccurrence_plain _ _ _ (by decide)]; simp
    · rw [scanTokens_input] at h
      rw [firstOccurrence_value _ _ _ _ (by decide), if_neg (by decide)]
      simpa using ih1 _ _ h
    · rw [scanTokens_output] at h
      rw [firstOccurrence_value _ _ _ _ (by decide), if_neg (by decide)]
      simpa using ih1 _ _ h
    · rw [scanTokens_key] at h
      rw [firstOccurrence_value _ _ _ _ (by decide), if_neg (by decide)]
      simpa using ih1 _ _ h
    · rw [scanTokens_encrypt] at h
      rw [firstOccurrence_plain _ _ _ (by decide), if_neg (by decide)]
      simpa using ih2 _ _ h
    · rw [scanTokens_decrypt] at h
      rw [firstOccurrence_plain _ _ _ (by decide), if_neg (by decide)]
      simpa using ih2 _ _ h
    · rw [scanTokens_cipher] at h
      rw [firstOccurrence_value _ _ _ _ (by decide), if_neg (by decide)]
      split_ifs at h
      · simpa using ih1 _ _ h
      · simpa using ih1 _ _ h
      · simpa using ih1 _ _ h
      · cases h
    · rw [scanTokens_unknown _ _ _ c] at h; cases h

/-- C20: help and version exclude each other. From settings in which neither is
requested, when the call returns, `helpRequested` and `versionRequested` are not both
true: if the first help or version flag in flag position is `--version`, only
`versionRequested` is true; if it is `-h` or `--help`, only `helpRequested` is true; if
there is none, both are false. -/
theorem processCommandLine_help_version_exclusive (cmdLineArgs : List String)
    (s0 s : ProgramSettings) (hsize : cmdLineArgs.length < 2 ^ 64)
    (hhelp : s0.helpRequested = false) (hversion : s0.versionRequested = false)
    (hret : processCommandLine cmdLineArgs s0 = some (Outcome.returned s)) :
    ¬ (s.helpRequested = true ∧ s.versionRequested = true)
      ∧ (firstOccurrence ["-h", "--help", "--version"] (cmdLineArgs.drop 1)).elim
          (false, false)
          (fun o => if o.1 = "--version" then (false, true) else (true, false))
        = (s.helpRequested, s.versionRequested) := by
  rw [processCommandLine_eq _ hsize] at hret
  have key := scanTokens_first_help_or_version (cmdLineArgs.drop 1) s0 s
    (Option.some.inj hret)
  rw [hhelp, hversion] at key
  refine ⟨?_, key⟩
  rintro ⟨h1, h2⟩
  rw [h1, h2] at key
  cases hfirst : firstOccurrence ["-h", "--help", "--version"] (cmdLineArgs.drop 1) with
  | none => rw [hfirst] at key; simp at key
  | some o =>
    rw [hfirst] at key
    simp only [Option.elim] at key
    split_ifs at key <;> simp at key

/-- Witness of C20 at `prog --version -h`: the version flag comes first, and it is the
only one set. -/
theorem processCommandLine_help_version_exclusive_witness :
    processCommandLine ["prog", "--version", "-h"] defaultSettings
        = some (Outcome.returned { defaultSettings with versionRequested := true })
      ∧ firstOccurrence ["-h", "--help", "--version"] ["--version", "-h"]
        = some ("--version", none)
      ∧ ¬ (({ defaultSettings with versionRequested := true } : ProgramSettings).helpRequested
            = true
          ∧ ({ defaultSettings with versionRequested := true } : ProgramSettings).versionRequested
            = true) :=
  ⟨by decide, by decide,
    (processCommandLine_help_version_exclusive ["prog", "--version", "-h"] defaultSettings
      { defaultSettings with versionRequested := true } (by decide) rfl rfl (by decide)).1⟩

/-! ## The order in which the workers finish -/

theorem complete_length (applyCipher : List Char → CipherMode → List Char)
    (cipherMode : CipherMode) (chunkList : List (List Char))
    (state : List (Option (List Char))) (i : Nat) :
    (complete applyCipher cipherMode chunkList state i).length = state.length := by
  unfold complete
  cases chunkList[i]? <;> simp

theorem foldl_complete_length (applyCipher : List Char → CipherMode → List Char)
    (cipherMode : CipherMode) (chunkList : List (List Char)) (order : List Nat) :
    ∀ state : List (Option (List Char)),
      (order.foldl (complete applyCipher cipherMode chunkList) state).length
        = state.length := by
  induction order with
  | nil => intro state; rfl
  | cons i rest ih =>
    intro state
    rw [List.foldl_cons, ih, complete_length]

/-- A future whose worker is in the order, or that is ready already, is ready at the
end, with the value of the cipher on its chunk. -/
theorem foldl_complete_ready (applyCipher : List Char → CipherMode → List Char)
    (cipherMode : CipherMode) (chunkList : List (List Char)) (j : Nat) (c : List Char)
    (hc : chunkList[j]? = some c) (order : List Nat) :
    ∀ state : List (Option (List Char)), state.length = chunkList.length →
      (j ∈ order ∨ state[j]? = some (some (applyCipher c cipherMode))) →
      (order.foldl (complete applyCipher cipherMode chunkList) state)[j]?
        = some (some (applyCipher c cipherMode)) := by
  have hj : j < chunkList.length := by
    rcases Nat.lt_or_ge j chunkList.length with h | h
    · exact h
    · rw [List.getElem?_eq_none h] at hc; cases hc
  induction order with
  | nil =>
    intro state _ h
    rcases h with h | h
    · cases h
    · exact h
  | cons i rest ih =>
    intro state hlen h
    rw [List.foldl_cons]
    apply ih _ (by rw [complete_length, hlen])
    by_cases hij : j = i
    · right
      subst hij
      unfold complete
      rw [hc]
      simp only [List.getElem?_set_self (by omega : j < state.length)]
    · rcases h with h | h
      · rcases List.mem_cons.mp h with h | h
        · exact absurd h hij
        · exact Or.inl h
      · right
        unfold complete
        cases chunkList[i]? with
        | none => exact h
        | some ci =>
          simp only []
          rw [List.getElem?_set_ne (fun e => hij e.symm)]
          exact h

theorem getAll_map_some (results : List (List Char)) :
    getAll (results.map some) = some results := by
  induction results with
  | nil => rfl
  | cons r rest ih => simp [getAll, ih]

/-- When every worker is in the order, every future is ready at the end, with the value
of the cipher on its chunk. -/
theorem runWorkers_eq (applyCipher : List Char → CipherMode → List Char)
    (cipherMode : CipherMode) (chunkList : List (List Char)) (order : List Nat)
    (hall : ∀ j, j < chunkList.length → j ∈ order) :
    runWorkers applyCipher cipherMode chunkList order
      = (chunkList.map fun c => applyCipher c cipherMode).map some := by
  apply List.ext_getElem?
  intro j
  unfold runWorkers
  rcases Nat.lt_or_ge j chunkList.length with hj | hj
  · have hc : chunkList[j]? = some chunkList[j] := List.getElem?_eq_getElem hj
    rw [foldl_complete_ready applyCipher cipherMode chunkList j _ hc order _
      (by simp) (Or.inl (hall j hj))]
    simp [hc]
  · rw [List.getElem?_eq_none (by rw [foldl_complete_length]; simpa using hj),
      List.getElem?_eq_none (by simpa using hj)]

/-- C16: the order in which the workers finish does not change the output. For every
text and every order that is a permutation of the four worker indices, the recombined
text is the value of the cipher on chunk 0, then on chunk 1, then on chunk 2, then on
chunk 3, which is the output of the chunked transform. -/
theorem completion_order_irrelevant (applyCipher : List Char → CipherMode → List Char)
    (cipherMode : CipherMode) (inputText : List Char) (hL : inputText.length < 2 ^ 64)
    (order : List Nat) (hperm : order.Perm (List.range nThreads)) :
    ∃ c0 c1 c2 c3, chunks inputText = some [c0, c1, c2, c3]
      ∧ transformInOrder applyCipher cipherMode inputText order
        = some (applyCipher c0 cipherMode ++ applyCipher c1 cipherMode
            ++ applyCipher c2 cipherMode ++ applyCipher c3 cipherMode)
      ∧ transformInOrder applyCipher cipherMode inputText order
        = chunkedTransform applyCipher cipherMode inputText := by
  have hchunks := chunks_eq inputText hL
  have hall : ∀ j, j < 4 → j ∈ order := by
    intro j hj
    exact hperm.symm.subset (List.mem_range.mpr hj)
  have hrun : transformInOrder applyCipher cipherMode inputText order
      = some (applyCipher (inputText.take (inputText.length / 4)) cipherMode
          ++ applyCipher ((inputText.drop (inputText.length / 4)).take
            (inputText.length / 4)) cipherMode
          ++ applyCipher ((inputText.drop (inputText.length / 4 * 2)).take
            (inputText.length / 4)) cipherMode
          ++ applyCipher (inputText.drop (inputText.length / 4 * 3)) cipherMode) := by
    unfold transformInOrder
    rw [hchunks]
    simp only [Option.some_bind]
    rw [runWorkers_eq applyCipher cipherMode _ order (by simpa using hall),
      getAll_map_some]
    simp [outputText]
  exact ⟨_, _, _, _, hchunks, hrun,
    by rw [hrun, chunkedTransform_eq applyCipher cipherMode inputText hL]⟩

/-- Witness of C16: the workers finish in the order 2, 0, 3, 1. -/
theorem completion_order_irrelevant_witness :
    [2, 0, 3, 1].Perm (List.range nThreads)
      ∧ transformInOrder (fun t _ => t.map Char.toLower) CipherMode.Encrypt
          "ABCDEFGHIJ".toList [2, 0, 3, 1] = some "abcdefghij".toList
      ∧ transformInOrder (fun t _ => t.map Char.toLower) CipherMode.Encrypt
          "ABCDEFGHIJ".toList [2, 0, 3, 1]
        = chunkedTransform (fun t _ => t.map Char.toLower) CipherMode.Encrypt
            "ABCDEFGHIJ".toList := by
  have hperm : [2, 0, 3, 1].Perm (List.range nThreads) := by decide
  obtain ⟨_, _, _, _, _, _, h⟩ := completion_order_irrelevant
    (fun t _ => t.map Char.toLower) CipherMode.Encrypt "ABCDEFGHIJ".toList (by decide)
    [2, 0, 3, 1] hperm
  exact ⟨hperm, by decide, h⟩

end MPAGSCipher
